import Mathlib

/-!
Verification of the buddy allocator in `src/BuddyAllocator.hpp`.

The C++ allocator is embedded shallowly:
* machine addresses and sizes (`std::uintptr_t`) become `Nat` (no execution
  considered here overflows 64 bits, and all arithmetic used by the source —
  `+`, `^`, `& ~mask`, `<<` — agrees with `Nat` arithmetic below `2^64`);
* each intrusive free list `fList[l]` becomes the list of the addresses it
  threads through, in head-to-tail order (`emplace` = push head, `extract` =
  pop head, the buddy scan = remove first occurrence);
* the program break moved by `sbrk` becomes an explicit `brk : Nat` field,
  with `sbrk`'s possible failure (`(void*)-1`) given by a `growFail` flag;
* the out-of-bounds read `reverseLookup[sz]` for `sz = reverseLookup.size()`
  (the guard is `>`, the largest valid index is `size() - 1`) is modelled as
  `none`.
-/

set_option maxRecDepth 8000

namespace Buddy

/-- `constexpr std::uintptr_t maxLevels = 8`. -/
def maxLevels : Nat := 8

/-- `constexpr std::uintptr_t minSize = 32`. -/
def minSize : Nat := 32

/-- `levelSize[i] = minSize << i` (the table is filled with exactly these
values for `i < maxLevels`; we use the generating function). -/
def levelSize (i : Nat) : Nat := minSize <<< i

/-- `constexpr std::uintptr_t maxSize = levelSize[maxLevels - 1]`. -/
def maxSize : Nat := levelSize (maxLevels - 1)

/-- The length of the `reverseLookup` array:
`constexpr arrsz = (minSize << (maxLevels - 1))/2 + 1`. -/
def revLen : Nat := (minSize <<< (maxLevels - 1)) / 2 + 1

/-- One iteration of the `reverseLookup` building loop:
`if(currSz < i) currSz <<= 1, ++l;` then `rev[i] = l`.
Returns the updated `(currSz, l)`. -/
def revStep (currSz l i : Nat) : Nat × Nat :=
  if currSz < i then (currSz <<< 1, l + 1) else (currSz, l)

/-- Builds the entries `rev[i], rev[i+1], …` (`n` of them) of the
`reverseLookup` table from loop state `(currSz, l)`. -/
def revBuild : Nat → Nat → Nat → Nat → List Nat
  | _, _, _, 0 => []
  | currSz, l, i, n + 1 =>
    let p := revStep currSz l i
    p.2 :: revBuild p.1 p.2 (i + 1) n

/-- The `reverseLookup` table (`inline std::array constexpr reverseLookup`). -/
def reverseLookup : List Nat := revBuild minSize 0 0 revLen

/-- The level computation shared by `allocate` and `deallocate`:
`sz > reverseLookup.size() ? maxLevels - 1 : reverseLookup[sz]`.
`reverseLookup.size()` is the compile-time array size `revLen` (the lemma
`reverseLookup_length` below checks that the built table indeed has that
length).  `reverseLookup[sz]` with `sz` out of range — which the guard
permits at `sz = reverseLookup.size()`, the largest valid index being
`reverseLookup.size() - 1` — is an out-of-bounds read; it is modelled as
`none`. -/
def levelLookup (sz : Nat) : Option Nat :=
  if sz > revLen then some (maxLevels - 1) else reverseLookup.get? sz

/-- Allocator state: the per-level free lists (`inline std::array<FreeList,
maxLevels> fList`, each list given by the addresses it holds, head first) and
the current program break. -/
structure State where
  fLists : Nat → List Nat
  brk : Nat

/-- Replace the free list of one level. -/
def setList (s : State) (l : Nat) (xs : List Nat) : State :=
  { s with fLists := fun k => if k = l then xs else s.fLists k }

/-- `fList[l].emplace(a)`: push `a` as the new head of level `l`'s list. -/
def emplace (s : State) (l : Nat) (a : Nat) : State :=
  setList s l (a :: s.fLists l)

/-- The body of the search loop of `allocate`, with the remaining number of
levels to scan made explicit for structural recursion (the loop runs `l` from
`level` to `maxLevels - 1`, so `maxLevels - l` iterations remain). -/
def takeBlockAux (s : State) : Nat → Nat → Option (Nat × Nat × State)
  | 0, _ => none
  | fuel + 1, l =>
    if l < maxLevels then
      match s.fLists l with
      | [] => takeBlockAux s fuel (l + 1)
      | m :: rest => some (m, l, setList s l rest)
    else none

/-- The search loop of `allocate`:
`for(int l = level; l < maxLevels; ++l) if(!fList[l].empty()) { mem = fList[l].extract(); currLevel = l; break; }`.
Returns `(mem, currLevel, state after the extract)`, or `none` when every
scanned list is empty. -/
def takeBlock (s : State) (l : Nat) : Option (Nat × Nat × State) :=
  takeBlockAux s (maxLevels - l) l

/-- The loop-shaped unfolding of `takeBlock`. -/
theorem takeBlock_eq (s : State) (l : Nat) :
    takeBlock s l =
      if l < maxLevels then
        match s.fLists l with
        | [] => takeBlock s (l + 1)
        | m :: rest => some (m, l, setList s l rest)
      else none := by
  by_cases h : l < maxLevels
  · rw [if_pos h]
    show takeBlockAux s (maxLevels - l) l = _
    rw [show maxLevels - l = (maxLevels - (l + 1)) + 1 by omega]
    rw [takeBlockAux, if_pos h]
    rfl
  · rw [if_neg h]
    show takeBlockAux s (maxLevels - l) l = none
    rw [show maxLevels - l = 0 by omega]
    rfl

/-- The split loop of `allocate`:
`while(currLevel --> level) fList[currLevel].emplace(mem + levelSize[currLevel]);`
(one equation per value of `currLevel`; the loop body runs for
`currLevel = curr, curr - 1, …, level`). -/
def splitDown (mem level : Nat) : Nat → State → State
  | 0, s => s
  | curr + 1, s =>
    if level < curr + 1 then
      splitDown mem level curr (emplace s curr (mem + levelSize curr))
    else s

/-- The two ways `allocate` can fail: `std::bad_alloc` after `sbrk` returns
`(void*)-1`, and the out-of-bounds `reverseLookup` read. -/
inductive Err where
  | outOfMemory
  | oobRead
deriving DecidableEq

/-- `Allocator::allocate(sz)`.  `growFail` says whether `sbrk` would fail
(return `(void*)-1`) on this call; a successful `sbrk(maxSize)` returns the
old break and advances it by `maxSize`.  (An address extracted from a free
list is an address of heap memory, so it can never compare equal to
`(void*)-1`; the `bad_alloc` check therefore only fires on the growth path.)
Returns `(memory, granted size, new state)`. -/
def allocate (growFail : Bool) (sz : Nat) (s : State) : Except Err (Nat × Nat × State) :=
  match levelLookup sz with
  | none => .error .oobRead
  | some level =>
    match takeBlock s level with
    | some (mem, currLevel, s1) =>
      .ok (mem, levelSize level, splitDown mem level currLevel s1)
    | none =>
      if growFail then .error .outOfMemory
      else
        .ok (s.brk, levelSize level,
          splitDown s.brk level (maxLevels - 1) { s with brk := s.brk + maxSize })

/-- The bubble-up loop of `deallocate`, written with explicit fuel (the C++
loop is a `while`; on every input reachable through a valid `Allocation` it
runs at most `maxLevels - 1` iterations, so fuel `maxLevels` is never
exhausted).  One iteration: if `size != maxSize`, compute
`buddy = memory ^ levelSize[lv]`; scan `fList[lv]` for `buddy`; if found,
remove it, set `memory &= ~levelSize[lv]` (written `mem - (mem &&& mask)`,
which clears exactly the bits of `mask`), increment `lv` and double `size`;
otherwise stop.  Returns the final `(memory, size, lv, state)`. -/
def mergeLoop : Nat → Nat → Nat → Nat → State → Nat × Nat × Nat × State
  | 0, mem, size, lv, s => (mem, size, lv, s)
  | fuel + 1, mem, size, lv, s =>
    if size = maxSize then (mem, size, lv, s)
    else
      let buddy := mem ^^^ levelSize lv
      if buddy ∈ s.fLists lv then
        mergeLoop fuel (mem - (mem &&& levelSize lv)) (size <<< 1) (lv + 1)
          (setList s lv ((s.fLists lv).erase buddy))
      else (mem, size, lv, s)

/-- `Allocator::deallocate` on the raw `(memory, size)` pair of an
`Allocation`: the null check, the level lookup (same expression as in
`allocate`, `none` again modelling the out-of-bounds read), the bubble-up
loop, and the final `fList[lv].emplace(memory)`. -/
def deallocate (mem size : Nat) (s : State) : Option State :=
  if mem = 0 then some s
  else
    match levelLookup size with
    | none => none
    | some lv =>
      let r := mergeLoop maxLevels mem size lv s
      some (emplace r.2.2.2 r.2.2.1 r.1)

/-- The `Allocation` handle: `void *memory` (null = `0`) and
`std::uintptr_t size`. -/
structure Allocation where
  memory : Nat
  size : Nat
deriving DecidableEq

/-- `Allocator::deallocate(Allocation &alloc)` including its effect on the
handle: an empty handle returns immediately; otherwise the block is freed and
the handle is nulled (`alloc.memory = nullptr; alloc.size = 0;`). -/
def deallocateH (al : Allocation) (s : State) : Option (Allocation × State) :=
  if al.memory = 0 then some (al, s)
  else
    match deallocate al.memory al.size s with
    | none => none
    | some s1 => some (⟨0, 0⟩, s1)

/-- The initial state: all free lists start empty, the program break starts
at `brk0` (its value is owned by the operating system, not by this code). -/
def initState (brk0 : Nat) : State :=
  ⟨fun _ => [], brk0⟩

/-- An allocator configuration: the allocator state plus the multiset of
outstanding (not yet released) allocations, each recorded as
`(memory, granted size)`. -/
structure Config where
  s : State
  handles : List (Nat × Nat)

/-- States reachable from the empty initial state by any sequence of
`allocate` calls and `deallocate` calls on outstanding handles. -/
inductive Reachable (brk0 : Nat) : Config → Prop where
  | init : Reachable brk0 ⟨initState brk0, []⟩
  | alloc {c : Config} {gf : Bool} {n a g : Nat} {s1 : State} :
      Reachable brk0 c → allocate gf n c.s = .ok (a, g, s1) →
      Reachable brk0 ⟨s1, (a, g) :: c.handles⟩
  | dealloc {c : Config} {a g : Nat} {s1 : State} :
      Reachable brk0 c → (a, g) ∈ c.handles → deallocate a g c.s = some s1 →
      Reachable brk0 ⟨s1, c.handles.erase (a, g)⟩

/-! ### Definitions following the specification's wording

These are deliberately written from the spec's sentences (for the refinement
claims), to be compared with the definitions above, which are translated from
the source. -/

/-- The smallest level whose size is at least the request (spec §4.1
`levelFor`), defaulting to the top level. -/
def specLevel (i : Nat) : Nat :=
  (((List.range maxLevels).find? fun l => decide (i ≤ levelSize l))).getD (maxLevels - 1)

/-- Spec §4.5 step 1: the level whose size equals the freed size exactly. -/
def exactLevel (size : Nat) : Option Nat :=
  (List.range maxLevels).find? fun l => decide (levelSize l = size)

/-- Spec §4.5 steps 2a–2c, following the spec's wording: while the size is
not yet `maxSize`, compute `buddyAddress = address XOR levelSizeOf(level)`;
if and only if that exact address is on the level's free list, remove it and
continue one level up with the merged block
`{address AND NOT levelSizeOf(level), doubled size}`; otherwise stop.  The
size is kept implicitly as `levelSize lv`.  Returns `(address, level, state)`
for the final insertion. -/
def specBubble : Nat → Nat → Nat → State → Nat × Nat × State
  | 0, addr, lv, s => (addr, lv, s)
  | fuel + 1, addr, lv, s =>
    if levelSize lv = maxSize then (addr, lv, s)
    else
      let buddyAddress := addr ^^^ levelSize lv
      if buddyAddress ∈ s.fLists lv then
        specBubble fuel (addr - (addr &&& levelSize lv)) (lv + 1)
          (setList s lv ((s.fLists lv).erase buddyAddress))
      else (addr, lv, s)

/-- Spec §4.5 assembled: start at the exact level of the freed size, bubble
up (at most up to the top level), insert the final block at its final
level. -/
def deallocSpec (addr size : Nat) (s : State) : Option State :=
  match exactLevel size with
  | none => none
  | some lv =>
    let r := specBubble (maxLevels - lv) addr lv s
    some (emplace r.2.2 r.2.1 r.1)

/-- Spec §4.4 step 2: scan levels `target .. L-1` in increasing order and
return the first one whose free list is non-empty. -/
def firstFree (s : State) (target : Nat) : Option Nat :=
  (List.range' target (maxLevels - target)).find? fun l => decide (s.fLists l ≠ [])

/-- Spec §4.4 step 4, following the spec's wording: while `found > target`,
decrement `found`, keep the lower half and insert the upper half
(`block address + newSize`) into the free list at `found`. -/
def specSplit : Nat → Nat → Nat → State → State
  | _, _, 0, s => s
  | addr, target, found + 1, s =>
    if target < found + 1 then
      let newSize := levelSize found
      specSplit addr target found (emplace s found (addr + newSize))
    else s

/-- Spec §4.4 steps 2–5 for a given target level: take the head of the first
non-empty level, or grow the heap by one `maxSize` block at the top level;
split down to the target; return `{block address, levelSizeOf(target)}`. -/
def allocSpec (target : Nat) (s : State) : Nat × Nat × State :=
  match firstFree s target with
  | some f =>
    let mem := (s.fLists f).headD 0
    let s1 := setList s f (s.fLists f).tail
    (mem, levelSize target, specSplit mem target f s1)
  | none =>
    (s.brk, levelSize target,
      specSplit s.brk target (maxLevels - 1) { s with brk := s.brk + maxSize })

/-! ### Arithmetic facts about the size-class table -/

theorem levelSize_eq_pow (i : Nat) : levelSize i = 2 ^ (i + 5) := by
  simp only [levelSize, minSize, Nat.shiftLeft_eq]
  rw [show (32 : Nat) = 2 ^ 5 from rfl, ← pow_add, Nat.add_comm]

theorem levelSize_pos (i : Nat) : 0 < levelSize i := by
  rw [levelSize_eq_pow]; exact Nat.pos_pow_of_pos _ (by omega)

theorem levelSize_strictMono {i j : Nat} (h : i < j) : levelSize i < levelSize j := by
  rw [levelSize_eq_pow, levelSize_eq_pow]
  exact Nat.pow_lt_pow_right (by omega) (by omega)

theorem levelSize_le_iff {i j : Nat} : levelSize i ≤ levelSize j ↔ i ≤ j := by
  rw [levelSize_eq_pow, levelSize_eq_pow]
  constructor
  · intro h
    by_contra hc
    exact absurd h (Nat.not_le_of_lt (Nat.pow_lt_pow_right (by omega) (by omega)))
  · intro h
    exact Nat.pow_le_pow_right (by omega) (by omega)

theorem levelSize_inj {i j : Nat} (h : levelSize i = levelSize j) : i = j := by
  have h1 : i ≤ j := levelSize_le_iff.mp h.le
  have h2 : j ≤ i := levelSize_le_iff.mp h.ge
  omega

theorem maxSize_eq : maxSize = 4096 := rfl

theorem maxLevels_eq : maxLevels = 8 := rfl

theorem maxSize_pos : 0 < maxSize := by rw [maxSize_eq]; omega

theorem revLen_eq : revLen = 2049 := rfl

theorem levelSize_eq_maxSize_iff {lv : Nat} : levelSize lv = maxSize ↔ lv = 7 := by
  constructor
  · intro h; exact levelSize_inj (show levelSize lv = levelSize 7 from h)
  · intro h; subst h; rfl

theorem levelSize_succ (i : Nat) : levelSize (i + 1) = levelSize i <<< 1 := by
  rw [Nat.shiftLeft_eq, levelSize_eq_pow, levelSize_eq_pow]
  rw [pow_one, show i + 1 + 5 = i + 5 + 1 from rfl, pow_succ]

/-! ### Characterisation of the `reverseLookup` table

The table is characterised without ever evaluating it in full: the loop
state `(currSz, l)` after each index is described by `revIter`, and a loop
invariant gives the "smallest sufficient level" property of every entry. -/

/-- The loop state `(currSz, l)` after running `m` iterations of the
table-building loop from state `(currSz, l)` at index `i`. -/
def revIter : Nat → Nat → Nat → Nat → Nat × Nat
  | currSz, l, _, 0 => (currSz, l)
  | currSz, l, i, m + 1 =>
    let p := revStep currSz l i
    revIter p.1 p.2 (i + 1) m

theorem revBuild_length (currSz l i n : Nat) :
    (revBuild currSz l i n).length = n := by
  induction n generalizing currSz l i with
  | zero => rfl
  | succ n ih => simp [revBuild, ih]

theorem reverseLookup_length : reverseLookup.length = revLen :=
  revBuild_length _ _ _ _

theorem revIter_succ (currSz l i m : Nat) :
    revIter currSz l i (m + 1) =
      revStep (revIter currSz l i m).1 (revIter currSz l i m).2 (i + m) := by
  induction m generalizing currSz l i with
  | zero => rfl
  | succ m ih =>
    have h1 : revIter currSz l i (m + 1 + 1) =
        revIter (revStep currSz l i).1 (revStep currSz l i).2 (i + 1) (m + 1) := rfl
    have h2 : revIter currSz l i (m + 1) =
        revIter (revStep currSz l i).1 (revStep currSz l i).2 (i + 1) m := rfl
    rw [h1, ih, h2, show i + 1 + m = i + (m + 1) by omega]

theorem revBuild_get? (n : Nat) :
    ∀ (k currSz l i : Nat), k < n →
      (revBuild currSz l i n).get? k = some (revIter currSz l i (k + 1)).2 := by
  induction n with
  | zero => omega
  | succ n ih =>
    intro k currSz l i hk
    have hb : revBuild currSz l i (n + 1) =
        (revStep currSz l i).2 :: revBuild (revStep currSz l i).1 (revStep currSz l i).2 (i + 1) n :=
      rfl
    match k with
    | 0 =>
      rw [hb]
      rfl
    | k + 1 =>
      rw [hb]
      show (revBuild (revStep currSz l i).1 (revStep currSz l i).2 (i + 1) n).get? k = _
      rw [ih k _ _ _ (by omega)]
      rfl

/-- The absolute loop state after the entry for index `k` has been written:
`reverseLookup[k] = (revAt k).2`. -/
def revAt (k : Nat) : Nat × Nat := revIter minSize 0 0 (k + 1)

theorem reverseLookup_get? {k : Nat} (h : k < revLen) :
    reverseLookup.get? k = some (revAt k).2 :=
  revBuild_get? _ _ _ _ _ h

/-- The loop invariant: after writing entry `k`, the state `(currSz, l)`
satisfies `currSz = levelSize l`, `k ≤ currSz`, and `l` is least with that
property. -/
theorem revAt_inv (k : Nat) :
    (revAt k).1 = levelSize (revAt k).2 ∧ k ≤ (revAt k).1 ∧
      ((revAt k).2 = 0 ∨ levelSize ((revAt k).2 - 1) < k) := by
  induction k with
  | zero => exact ⟨by decide, by decide, by decide⟩
  | succ k ih =>
    obtain ⟨h1, h2, h3⟩ := ih
    have hstep : revAt (k + 1) = revStep (revAt k).1 (revAt k).2 (k + 1) := by
      show revIter minSize 0 0 (k + 1 + 1) = _
      rw [revIter_succ, Nat.zero_add]
      rfl
    rw [hstep, revStep]
    by_cases hc : (revAt k).1 < k + 1
    · rw [if_pos hc]
      refine ⟨?_, ?_, Or.inr ?_⟩
      · show (revAt k).1 <<< 1 = levelSize ((revAt k).2 + 1)
        rw [levelSize_succ, h1]
      · show k + 1 ≤ (revAt k).1 <<< 1
        have hpos : 0 < (revAt k).1 := h1 ▸ levelSize_pos _
        rw [Nat.shiftLeft_eq, pow_one]
        omega
      · show levelSize ((revAt k).2 + 1 - 1) < k + 1
        rw [Nat.add_sub_cancel, ← h1]
        omega
    · rw [if_neg hc]
      refine ⟨h1, by omega, ?_⟩
      show (revAt k).2 = 0 ∨ levelSize ((revAt k).2 - 1) < k + 1
      omega

/-- The table entry for any in-range request is the smallest sufficient
level. -/
theorem levelLookup_char {sz : Nat} (h : sz ≤ 2048) :
    ∃ l, levelLookup sz = some l ∧ sz ≤ levelSize l ∧
      (l = 0 ∨ levelSize (l - 1) < sz) ∧ l ≤ 6 := by
  have hlt : sz < revLen := by rw [revLen_eq]; omega
  refine ⟨(revAt sz).2, ?_, ?_, ?_, ?_⟩
  · rw [levelLookup, if_neg (by rw [revLen_eq]; omega), reverseLookup_get? hlt]
  · have := revAt_inv sz
    omega
  · exact (revAt_inv sz).2.2
  · rcases (revAt_inv sz).2.2 with h0 | hlt2
    · omega
    · by_contra hc
      have : levelSize 6 ≤ levelSize ((revAt sz).2 - 1) := levelSize_le_iff.mpr (by omega)
      have : (2048 : Nat) ≤ levelSize ((revAt sz).2 - 1) := by
        calc (2048 : Nat) = levelSize 6 := rfl
        _ ≤ _ := this
      omega

/-- The out-of-bounds read: `sz = 2049` passes the guard
(`2049 > reverseLookup.size()` is false) yet the table has no entry at
index `2049`. -/
theorem levelLookup_oob : levelLookup 2049 = none := by
  rw [levelLookup, if_neg (by rw [revLen_eq]; omega)]
  exact List.get?_eq_none.mpr (by rw [reverseLookup_length, revLen_eq])

theorem levelLookup_gt {sz : Nat} (h : 2049 < sz) : levelLookup sz = some 7 := by
  rw [levelLookup, if_pos (by rw [revLen_eq]; omega)]
  rfl

theorem levelLookup_le {sz l : Nat} (h : levelLookup sz = some l) : l ≤ 7 := by
  by_cases hs : sz ≤ 2048
  · obtain ⟨l2, hl2, _, _, h6⟩ := levelLookup_char hs
    have : l = l2 := Option.some.inj (h.symm.trans hl2)
    omega
  · by_cases hs2 : sz = 2049
    · subst hs2; rw [levelLookup_oob] at h; cases h
    · rw [levelLookup_gt (by omega)] at h
      have : (7 : Nat) = l := Option.some.inj h
      omega

/-- The level recorded for a valid level size is that exact level. -/
theorem levelLookup_levelSize {t : Nat} (ht : t ≤ 7) :
    levelLookup (levelSize t) = some t := by
  by_cases h7 : t = 7
  · subst h7
    exact levelLookup_gt (by rw [show levelSize 7 = 4096 from rfl]; omega)
  · have hle : levelSize t ≤ 2048 := by
      calc levelSize t ≤ levelSize 6 := levelSize_le_iff.mpr (by omega)
      _ = 2048 := rfl
    obtain ⟨l, hl, hge, hmin, _⟩ := levelLookup_char hle
    have h1 : t ≤ l := levelSize_le_iff.mp hge
    have h2 : l ≤ t := by
      rcases hmin with h0 | hlt2
      · omega
      · by_contra hc
        have : levelSize t ≤ levelSize (l - 1) := levelSize_le_iff.mpr (by omega)
        omega
    have : l = t := by omega
    rw [hl, this]

/-! ### Bit-arithmetic toolkit

The buddy computation `address ^ levelSize[lv]` and the merge computation
`address & ~levelSize[lv]` are governed by the single bit
`address.testBit (lv + 5)` (since `levelSize lv = 2 ^ (lv + 5)`). -/

theorem testBit_false_lt {x k : Nat} (hlt : x < 2 ^ (k + 1)) (h : x.testBit k = false) :
    x < 2 ^ k := by
  by_contra hc
  have hdiv : x / 2 ^ k = 1 := by
    apply Nat.div_eq_of_lt_le
    · omega
    · rw [show (1 + 1) * 2 ^ k = 2 ^ (k + 1) by rw [pow_succ]; ring]
      exact hlt
  rw [Nat.testBit_to_div_mod, hdiv] at h
  simp at h

theorem mod_two_pow_succ_lt {b k : Nat} (h : b.testBit k = false) : b % 2 ^ (k + 1) < 2 ^ k := by
  apply testBit_false_lt (Nat.mod_lt _ (Nat.pos_pow_of_pos _ (by omega)))
  rw [Nat.testBit_mod_two_pow]
  simp [h]

theorem xor_two_pow_of_testBit_false {b k : Nat} (h : b.testBit k = false) :
    b ^^^ 2 ^ k = b + 2 ^ k := by
  apply Nat.eq_of_testBit_eq
  intro j
  have hrlt : b % 2 ^ (k + 1) < 2 ^ k := mod_two_pow_succ_lt h
  have hrlt2 : b % 2 ^ (k + 1) < 2 ^ (k + 1) := Nat.mod_lt _ (Nat.pos_pow_of_pos _ (by omega))
  have hpow : (2 : Nat) ^ (k + 1) = 2 ^ k + 2 ^ k := by rw [pow_succ]; ring
  have hdecomp : b = 2 ^ (k + 1) * (b / 2 ^ (k + 1)) + b % 2 ^ (k + 1) :=
    (Nat.div_add_mod b (2 ^ (k + 1))).symm
  have hb : b.testBit j =
      if j < k + 1 then (b % 2 ^ (k + 1)).testBit j
      else (b / 2 ^ (k + 1)).testBit (j - (k + 1)) := by
    conv_lhs => rw [hdecomp]
    exact Nat.testBit_mul_pow_two_add _ hrlt2 j
  have hb2 : (b + 2 ^ k).testBit j =
      if j < k + 1 then (b % 2 ^ (k + 1) + 2 ^ k).testBit j
      else (b / 2 ^ (k + 1)).testBit (j - (k + 1)) := by
    have he : b + 2 ^ k = 2 ^ (k + 1) * (b / 2 ^ (k + 1)) + (b % 2 ^ (k + 1) + 2 ^ k) := by
      omega
    rw [he]
    exact Nat.testBit_mul_pow_two_add _ (by omega) j
  have hsum : (b % 2 ^ (k + 1) + 2 ^ k) = 2 ^ k * 1 + b % 2 ^ (k + 1) := by ring
  rw [Nat.testBit_xor, Nat.testBit_two_pow, hb, hb2]
  rcases Nat.lt_trichotomy j k with hj | hj | hj
  · rw [if_pos (by omega), if_pos (by omega), hsum, Nat.testBit_mul_pow_two_add _ hrlt,
      if_pos hj]
    simp [show k ≠ j by omega]
  · subst hj
    rw [if_pos (by omega), if_pos (by omega), hsum, Nat.testBit_mul_pow_two_add _ hrlt,
      if_neg (by omega)]
    have : (b % 2 ^ (j + 1)).testBit j = false := Nat.testBit_lt_two_pow hrlt
    simp [this]
  · rw [if_neg (by omega), if_neg (by omega)]
    simp [show k ≠ j by omega]

theorem xor_pow_involution (b m : Nat) : b ^^^ m ^^^ m = b := by
  rw [Nat.xor_assoc]
  simp

theorem xor_two_pow_of_testBit_true {b k : Nat} (h : b.testBit k = true) :
    b = (b ^^^ 2 ^ k) + 2 ^ k := by
  have hbit : (b ^^^ 2 ^ k).testBit k = false := by
    rw [Nat.testBit_xor, Nat.testBit_two_pow]
    simp [h]
  have h2 := xor_two_pow_of_testBit_false hbit
  rw [xor_pow_involution] at h2
  exact h2

theorem and_two_pow_of_testBit_false {b k : Nat} (h : b.testBit k = false) :
    b &&& 2 ^ k = 0 := by
  apply Nat.eq_of_testBit_eq
  intro j
  rw [Nat.testBit_and, Nat.testBit_two_pow]
  by_cases hj : k = j
  · subst hj; simp [h]
  · simp [hj]

theorem and_two_pow_of_testBit_true {b k : Nat} (h : b.testBit k = true) :
    b &&& 2 ^ k = 2 ^ k := by
  apply Nat.eq_of_testBit_eq
  intro j
  rw [Nat.testBit_and, Nat.testBit_two_pow]
  by_cases hj : k = j
  · subst hj; simp [h]
  · simp [hj]

/-! The same facts expressed in terms of `levelSize`. -/

theorem levelSize_xor_false {b k : Nat} (h : b.testBit (k + 5) = false) :
    b ^^^ levelSize k = b + levelSize k := by
  rw [levelSize_eq_pow]; exact xor_two_pow_of_testBit_false h

theorem levelSize_xor_true {b k : Nat} (h : b.testBit (k + 5) = true) :
    b = (b ^^^ levelSize k) + levelSize k := by
  rw [levelSize_eq_pow]; exact xor_two_pow_of_testBit_true h

theorem levelSize_clear_false {b k : Nat} (h : b.testBit (k + 5) = false) :
    b - (b &&& levelSize k) = b := by
  rw [levelSize_eq_pow, and_two_pow_of_testBit_false h]
  omega

theorem levelSize_clear_true {b k : Nat} (h : b.testBit (k + 5) = true) :
    b - (b &&& levelSize k) = b ^^^ levelSize k := by
  rw [levelSize_eq_pow, and_two_pow_of_testBit_true h]
  have := xor_two_pow_of_testBit_true h
  omega

theorem levelSize_xor_ne (b k : Nat) : b ^^^ levelSize k ≠ b := by
  intro heq
  have hpos := levelSize_pos k
  cases hbit : b.testBit (k + 5) with
  | false =>
    have := levelSize_xor_false hbit
    omega
  | true =>
    have := levelSize_xor_true hbit
    omega

theorem levelSize_dvd {k f : Nat} (h : k ≤ f) : levelSize k ∣ levelSize f := by
  rw [levelSize_eq_pow, levelSize_eq_pow]
  exact pow_dvd_pow 2 (by omega)

theorem aligned_mono {b k f : Nat} (hal : b % levelSize f = 0) (h : k ≤ f) :
    b % levelSize k = 0 :=
  Nat.mod_eq_zero_of_dvd ((levelSize_dvd h).trans (Nat.dvd_of_mod_eq_zero hal))

theorem levelSize_double (k : Nat) : levelSize (k + 1) = 2 * levelSize k := by
  rw [levelSize_succ, Nat.shiftLeft_eq, pow_one]
  ring

theorem testBit_false_of_aligned {b k c : Nat} (hal : b % 2 ^ c = 0) (hkc : k < c) :
    b.testBit k = false := by
  obtain ⟨m, hm⟩ := Nat.dvd_of_mod_eq_zero hal
  subst hm
  rw [Nat.testBit_to_div_mod]
  have hsplit : (2 : Nat) ^ c = 2 ^ k * 2 ^ (c - k) := by
    rw [← pow_add]; congr 1; omega
  rw [hsplit, Nat.mul_assoc, Nat.mul_div_cancel_left _ (Nat.pos_pow_of_pos _ (by omega))]
  have heven : (2 : Nat) ^ (c - k) * m = 2 * (2 ^ (c - k - 1) * m) := by
    rw [← Nat.mul_assoc, ← pow_succ']
    congr 2
    omega
  rw [heven]
  simp [Nat.mul_mod_right]

theorem levelSize_testBit_false {b k c : Nat} (hal : b % levelSize c = 0) (hkc : k < c) :
    b.testBit (k + 5) = false := by
  rw [levelSize_eq_pow] at hal
  exact testBit_false_of_aligned hal (by omega)

theorem aligned_succ_of_clear {b k : Nat} (hal : b % levelSize k = 0)
    (hbit : b.testBit (k + 5) = false) : b % levelSize (k + 1) = 0 := by
  obtain ⟨m, hm⟩ := Nat.dvd_of_mod_eq_zero hal
  have hls : levelSize k = 2 ^ (k + 5) := levelSize_eq_pow k
  have hmod : m % 2 = 0 := by
    rw [Nat.testBit_to_div_mod, hm, hls,
      Nat.mul_div_cancel_left _ (Nat.pos_pow_of_pos _ (by omega))] at hbit
    have : ¬ (m % 2 = 1) := by simpa using hbit
    omega
  obtain ⟨m2, hm2⟩ := Nat.dvd_of_mod_eq_zero hmod
  have hb : b = levelSize (k + 1) * m2 := by
    rw [levelSize_double, hm, hm2]
    ring
  rw [hb]
  exact Nat.mul_mod_right _ _

theorem aligned_succ_of_set {b k : Nat} (hal : b % levelSize k = 0)
    (hbit : b.testBit (k + 5) = true) : (b ^^^ levelSize k) % levelSize (k + 1) = 0 := by
  obtain ⟨m, hm⟩ := Nat.dvd_of_mod_eq_zero hal
  have hls : levelSize k = 2 ^ (k + 5) := levelSize_eq_pow k
  have hmod : m % 2 = 1 := by
    rw [Nat.testBit_to_div_mod, hm, hls,
      Nat.mul_div_cancel_left _ (Nat.pos_pow_of_pos _ (by omega))] at hbit
    simpa using hbit
  obtain ⟨m2, hm2⟩ : ∃ m2, m = 2 * m2 + 1 := ⟨m / 2, by omega⟩
  have hxval : b ^^^ levelSize k = levelSize (k + 1) * m2 := by
    have hx := levelSize_xor_true hbit
    have hb : b = levelSize (k + 1) * m2 + levelSize k := by
      rw [levelSize_double, hm, hm2]
      ring
    omega
  rw [hxval]
  exact Nat.mul_mod_right _ _

theorem aligned_add_level {b k f : Nat} (hal : b % levelSize f = 0) (hkf : k ≤ f) :
    (b + levelSize k) % levelSize k = 0 := by
  have h1 : levelSize k ∣ b := (levelSize_dvd hkf).trans (Nat.dvd_of_mod_eq_zero hal)
  exact Nat.mod_eq_zero_of_dvd (Nat.dvd_add h1 dvd_rfl)

/-! ### Free-list store lemmas -/

theorem setList_fLists (s : State) (l : Nat) (xs : List Nat) (k : Nat) :
    (setList s l xs).fLists k = if k = l then xs else s.fLists k := rfl

theorem setList_brk (s : State) (l : Nat) (xs : List Nat) : (setList s l xs).brk = s.brk := rfl

theorem emplace_fLists (s : State) (l a k : Nat) :
    (emplace s l a).fLists k = if k = l then a :: s.fLists l else s.fLists k := rfl

theorem emplace_brk (s : State) (l a : Nat) : (emplace s l a).brk = s.brk := rfl

/-- The search loop finds nothing exactly when all scanned lists are empty. -/
theorem takeBlock_eq_none : ∀ (n l : Nat), maxLevels - l ≤ n → ∀ s : State,
    (∀ k, l ≤ k → k < maxLevels → s.fLists k = []) → takeBlock s l = none := by
  intro n
  induction n with
  | zero =>
    intro l hl s _
    rw [takeBlock_eq, if_neg (by omega)]
  | succ n ih =>
    intro l hl s h
    rw [takeBlock_eq]
    by_cases hlt : l < maxLevels
    · rw [if_pos hlt, h l le_rfl hlt]
      exact ih (l + 1) (by omega) s fun k hk1 hk2 => h k (by omega) hk2
    · rw [if_neg hlt]

/-- The search loop takes the head of the first non-empty level. -/
theorem takeBlock_eq_some : ∀ (n l : Nat), maxLevels - l ≤ n → ∀ (s : State) (f a : Nat)
    (rest : List Nat), l ≤ f → f < maxLevels →
    (∀ k, l ≤ k → k < f → s.fLists k = []) → s.fLists f = a :: rest →
    takeBlock s l = some (a, f, setList s f rest) := by
  intro n
  induction n with
  | zero => intro l hl _ f _ _ hlf hf _ _; omega
  | succ n ih =>
    intro l hl s f a rest hlf hf hempty hl2
    rw [takeBlock_eq, if_pos (by omega)]
    by_cases hfl : l = f
    · subst hfl
      rw [hl2]
    · rw [hempty l le_rfl (by omega)]
      exact ih (l + 1) (by omega) s f a rest (by omega) hf
        (fun k hk1 hk2 => hempty k (by omega) hk2) hl2

/-- Inversion of the search loop. -/
theorem takeBlock_inv : ∀ (n l : Nat), maxLevels - l ≤ n → ∀ {s : State} {a f : Nat}
    {s2 : State}, takeBlock s l = some (a, f, s2) →
    l ≤ f ∧ f < maxLevels ∧ (∀ k, l ≤ k → k < f → s.fLists k = []) ∧
      ∃ rest, s.fLists f = a :: rest ∧ s2 = setList s f rest := by
  intro n
  induction n with
  | zero =>
    intro l hl s a f s2 h
    rw [takeBlock_eq, if_neg (by omega)] at h
    cases h
  | succ n ih =>
    intro l hl s a f s2 h
    rw [takeBlock_eq] at h
    by_cases hlt : l < maxLevels
    · rw [if_pos hlt] at h
      cases hfl : s.fLists l with
      | nil =>
        rw [hfl] at h
        obtain ⟨h1, h2, h3, h4⟩ := ih (l + 1) (by omega) h
        exact ⟨by omega, h2, fun k hk1 hk2 => by
          by_cases hkl : k = l
          · subst hkl; exact hfl
          · exact h3 k (by omega) hk2, h4⟩
      | cons m rest =>
        rw [hfl] at h
        obtain ⟨ha, hff, hs⟩ : m = a ∧ l = f ∧ setList s l rest = s2 := by
          injection h with h5
          injection h5 with h6 h7
          injection h7 with h8 h9
          exact ⟨h6, h8, h9⟩
        subst ha hff hs
        exact ⟨le_rfl, hlt, by omega, rest, hfl, rfl⟩
    · rw [if_neg hlt] at h
      cases h

/-- The split loop pushes the upper half `mem + levelSize k` onto every level
`k ∈ [level, curr)` and touches nothing else. -/
theorem splitDown_fLists : ∀ (curr level mem : Nat) (s : State) (k : Nat),
    (splitDown mem level curr s).fLists k =
      if level ≤ k ∧ k < curr then (mem + levelSize k) :: s.fLists k else s.fLists k := by
  intro curr
  induction curr with
  | zero =>
    intro level mem s k
    rw [splitDown, if_neg (by omega)]
  | succ c ih =>
    intro level mem s k
    rw [splitDown]
    by_cases hlc : level < c + 1
    · rw [if_pos hlc]
      rw [ih]
      by_cases hk : level ≤ k ∧ k < c
      · rw [if_pos hk, if_pos (by omega), emplace_fLists, if_neg (by omega)]
      · rw [if_neg hk]
        by_cases hkc : k = c
        · subst hkc
          rw [if_pos (by omega), emplace_fLists, if_pos rfl]
        · rw [emplace_fLists, if_neg hkc]
          by_cases hk2 : level ≤ k ∧ k < c + 1
          · omega
          · rw [if_neg hk2]
    · rw [if_neg hlc, if_neg (by omega)]

theorem splitDown_brk : ∀ (curr level mem : Nat) (s : State),
    (splitDown mem level curr s).brk = s.brk := by
  intro curr
  induction curr with
  | zero => intro level mem s; rw [splitDown]
  | succ c ih =>
    intro level mem s
    rw [splitDown]
    by_cases hlc : level < c + 1
    · rw [if_pos hlc]
      rw [ih, emplace_brk]
    · rw [if_neg hlc]

/-! ### The bubble-up loop -/

/-- General shape of the bubble-up loop on a state whose levels
`[lv, f)` hold exactly the single upper half `a + levelSize k` (the state
produced by splitting a block down from level `f`), with the buddy of `a`
absent at level `f` if `f` is below the top: it stops at some level
`k ≤ f`, still holding the original address `a`, having emptied the levels
`[lv, k)` and touched nothing else. -/
theorem mergeLoop_chain : ∀ (fuel lv : Nat) (a : Nat) (s : State) (f : Nat),
    lv ≤ f → f ≤ 7 → 7 - lv < fuel →
    (∀ k, lv ≤ k → k < f → s.fLists k = [a + levelSize k]) →
    (f < 7 → (a ^^^ levelSize f) ∉ s.fLists f) →
    ∃ k s2, lv ≤ k ∧ k ≤ f ∧
      mergeLoop fuel a (levelSize lv) lv s = (a, levelSize k, k, s2) ∧
      (∀ j, lv ≤ j → j < k → s2.fLists j = []) ∧
      (∀ j, ¬ (lv ≤ j ∧ j < k) → s2.fLists j = s.fLists j) ∧
      s2.brk = s.brk ∧
      (k < f → a.testBit (k + 5) = true) := by
  intro fuel
  induction fuel with
  | zero => intro lv a s f hlf hf7 hfuel; omega
  | succ n ih =>
    intro lv a s f hlf hf7 hfuel hsing hnotin
    by_cases htop : levelSize lv = maxSize
    · have hlv7 : lv = 7 := levelSize_eq_maxSize_iff.mp htop
      refine ⟨lv, s, le_rfl, hlf, ?_, by omega, fun j _ => rfl, rfl, by omega⟩
      rw [mergeLoop, if_pos htop]
    · have hlv7 : lv ≠ 7 := fun hc => htop (by rw [hc]; rfl)
      have hlvlt : lv < 7 := by omega
      by_cases hlvf : lv = f
      · subst hlvf
        have hnot := hnotin (by omega)
        refine ⟨lv, s, le_rfl, le_rfl, ?_, by omega, fun j _ => rfl, rfl, by omega⟩
        rw [mergeLoop, if_neg htop, if_neg hnot]
      · have hsl : s.fLists lv = [a + levelSize lv] := hsing lv le_rfl (by omega)
        cases hbit : a.testBit (lv + 5) with
        | false =>
          have hbuddy : a ^^^ levelSize lv = a + levelSize lv := levelSize_xor_false hbit
          have hmem : (a ^^^ levelSize lv) ∈ s.fLists lv := by
            rw [hsl, hbuddy]; exact List.mem_singleton.mpr rfl
          have hclear : a - (a &&& levelSize lv) = a := levelSize_clear_false hbit
          have hstep : mergeLoop (n + 1) a (levelSize lv) lv s =
              mergeLoop n a (levelSize (lv + 1)) (lv + 1)
                (setList s lv ((s.fLists lv).erase (a ^^^ levelSize lv))) := by
            rw [mergeLoop, if_neg htop, if_pos hmem, hclear, ← levelSize_succ]
          have herase : (s.fLists lv).erase (a ^^^ levelSize lv) = [] := by
            rw [hsl, hbuddy, List.erase_cons_head]
          set s1 := setList s lv ((s.fLists lv).erase (a ^^^ levelSize lv)) with hs1
          have hs1l : ∀ j, j ≠ lv → s1.fLists j = s.fLists j := by
            intro j hj
            rw [hs1, setList_fLists, if_neg hj]
          have hs1lv : s1.fLists lv = [] := by
            rw [hs1, setList_fLists, if_pos rfl, herase]
          obtain ⟨k, s2, hk1, hk2, heq, hemp, huntouched, hbrk, hstop⟩ :=
            ih (lv + 1) a s1 f (by omega) hf7 (by omega)
              (fun k hk1 hk2 => by rw [hs1l k (by omega)]; exact hsing k (by omega) hk2)
              (fun hf => by rw [hs1l f (by omega)]; exact hnotin hf)
          refine ⟨k, s2, by omega, hk2, hstep.trans heq, ?_, ?_, by
            rw [hbrk, hs1, setList_brk], hstop⟩
          · intro j hj1 hj2
            by_cases hjlv : j = lv
            · rw [hjlv, huntouched lv (by omega), hs1lv]
            · exact hemp j (by omega) hj2
          · intro j hj
            rw [huntouched j (by omega), hs1l j (by omega)]
        | true =>
          have hxor := levelSize_xor_true hbit
          have hpos := levelSize_pos lv
          have hnotmem : (a ^^^ levelSize lv) ∉ s.fLists lv := by
            rw [hsl]
            intro hmem
            have : a ^^^ levelSize lv = a + levelSize lv := List.mem_singleton.mp hmem
            omega
          refine ⟨lv, s, le_rfl, by omega, ?_, by omega, fun j _ => rfl, rfl,
            fun _ => hbit⟩
          rw [mergeLoop, if_neg htop, if_neg hnotmem]

/-- General shape of the bubble-up loop on an arbitrary state: it returns at
some level `k ∈ [lv, 7]` with a size that is still the level size of `k`, its
final state only ever removes free-list entries, and — whenever it stops below
the top level — the buddy of the final address is absent from the final
level's list (that is what made it stop). -/
theorem mergeLoop_inv : ∀ (fuel lv mem : Nat) (s : State), lv ≤ 7 → 7 - lv < fuel →
    ∃ m k s2, mergeLoop fuel mem (levelSize lv) lv s = (m, levelSize k, k, s2) ∧
      lv ≤ k ∧ k ≤ 7 ∧ s2.brk = s.brk ∧
      (∀ l x, x ∈ s2.fLists l → x ∈ s.fLists l) ∧
      (k < 7 → (m ^^^ levelSize k) ∉ s2.fLists k) ∧
      (0 < mem → (∀ l x, x ∈ s.fLists l → 0 < x) → 0 < m) ∧
      (mem % levelSize lv = 0 → m % levelSize k = 0) := by
  intro fuel
  induction fuel with
  | zero => intro lv mem s hlv hfuel; omega
  | succ n ih =>
    intro lv mem s hlv hfuel
    by_cases htop : levelSize lv = maxSize
    · have hlv7 : lv = 7 := levelSize_eq_maxSize_iff.mp htop
      refine ⟨mem, lv, s, ?_, le_rfl, by omega, rfl, fun l x hx => hx, by omega,
        fun h _ => h, fun h => h⟩
      rw [mergeLoop, if_pos htop]
    · have hlvlt : lv < 7 := by
        have : lv ≠ 7 := fun hc => htop (by rw [hc]; rfl)
        omega
      by_cases hmem : (mem ^^^ levelSize lv) ∈ s.fLists lv
      · set mem1 := mem - (mem &&& levelSize lv) with hmem1
        set s1 := setList s lv ((s.fLists lv).erase (mem ^^^ levelSize lv)) with hs1
        have hstep : mergeLoop (n + 1) mem (levelSize lv) lv s =
            mergeLoop n mem1 (levelSize (lv + 1)) (lv + 1) s1 := by
          rw [mergeLoop, if_neg htop, if_pos hmem, ← levelSize_succ]
        have hsub1 : ∀ l x, x ∈ s1.fLists l → x ∈ s.fLists l := by
          intro l x hx
          rw [hs1, setList_fLists] at hx
          by_cases hllv : l = lv
          · rw [if_pos hllv] at hx
            rw [hllv]
            exact List.mem_of_mem_erase hx
          · rw [if_neg hllv] at hx
            exact hx
        obtain ⟨m, k, s2, heq, hk1, hk2, hbrk, hsub, hexit, hpos, halign⟩ :=
          ih (lv + 1) mem1 s1 (by omega) (by omega)
        refine ⟨m, k, s2, hstep.trans heq, by omega, hk2, by rw [hbrk, hs1, setList_brk],
          fun l x hx => hsub1 l x (hsub l x hx), hexit, ?_, ?_⟩
        · intro hmempos hlistpos
          apply hpos
          · cases hbit : mem.testBit (lv + 5) with
            | false => rw [hmem1, levelSize_clear_false hbit]; exact hmempos
            | true =>
              rw [hmem1, levelSize_clear_true hbit]
              exact hlistpos lv _ hmem
          · intro l x hx
            exact hlistpos l x (hsub1 l x hx)
        · intro hal
          apply halign
          cases hbit : mem.testBit (lv + 5) with
          | false =>
            rw [hmem1, levelSize_clear_false hbit]
            exact aligned_succ_of_clear hal hbit
          | true =>
            rw [hmem1, levelSize_clear_true hbit]
            exact aligned_succ_of_set hal hbit
      · refine ⟨mem, lv, s, ?_, le_rfl, by omega, rfl, fun l x hx => hx,
          fun _ => hmem, fun h _ => h, fun h => h⟩
        rw [mergeLoop, if_neg htop, if_neg hmem]

/-- If the search loop finds nothing, all scanned lists are empty. -/
theorem takeBlock_none_inv : ∀ (n l : Nat), maxLevels - l ≤ n → ∀ {s : State},
    takeBlock s l = none → ∀ k, l ≤ k → k < maxLevels → s.fLists k = [] := by
  intro n
  induction n with
  | zero =>
    intro l hl s _ k hk1 hk2
    omega
  | succ n ih =>
    intro l hl s h k hk1 hk2
    rw [takeBlock_eq, if_pos (by omega)] at h
    cases hfl : s.fLists l with
    | nil =>
      rw [hfl] at h
      by_cases hkl : k = l
      · rw [hkl]; exact hfl
      · exact ih (l + 1) (by omega) h k (by omega) hk2
    | cons m rest =>
      rw [hfl] at h
      cases h

/-- Inversion of a successful `allocate`. -/
theorem allocate_ok_inv {gf : Bool} {n a g : Nat} {s s1 : State}
    (h : allocate gf n s = .ok (a, g, s1)) :
    ∃ t, levelLookup n = some t ∧ t ≤ 7 ∧ g = levelSize t ∧
      ((∃ f rest, t ≤ f ∧ f < maxLevels ∧ (∀ k, t ≤ k → k < f → s.fLists k = []) ∧
          s.fLists f = a :: rest ∧ s1 = splitDown a t f (setList s f rest)) ∨
        ((∀ k, t ≤ k → k < maxLevels → s.fLists k = []) ∧ gf = false ∧ a = s.brk ∧
          s1 = splitDown s.brk t (maxLevels - 1) { s with brk := s.brk + maxSize })) := by
  cases hlk : levelLookup n with
  | none =>
    simp only [allocate, hlk] at h
    cases h
  | some t =>
    simp only [allocate, hlk] at h
    refine ⟨t, rfl, levelLookup_le hlk, ?_⟩
    cases htb : takeBlock s t with
    | some r =>
      obtain ⟨mem, cl, st⟩ := r
      rw [htb] at h
      obtain ⟨ha, hg, hs⟩ : mem = a ∧ levelSize t = g ∧ splitDown mem t cl st = s1 := by
        injection h with h5
        injection h5 with h6 h7
        injection h7 with h8 h9
        exact ⟨h6, h8, h9⟩
      obtain ⟨h1, h2, h3, rest, h4, h5⟩ := takeBlock_inv maxLevels t (by omega) htb
      subst ha hg hs h5
      exact ⟨rfl, Or.inl ⟨cl, rest, h1, h2, h3, h4, rfl⟩⟩
    | none =>
      rw [htb] at h
      cases gf with
      | true => simp at h
      | false =>
        simp only [Bool.false_eq_true, if_false] at h
        obtain ⟨ha, hg, hs⟩ : s.brk = a ∧ levelSize t = g ∧
            splitDown s.brk t (maxLevels - 1) { s with brk := s.brk + maxSize } = s1 := by
          injection h with h5
          injection h5 with h6 h7
          injection h7 with h8 h9
          exact ⟨h6, h8, h9⟩
        subst ha hg hs
        exact ⟨rfl, Or.inr ⟨takeBlock_none_inv maxLevels t (by omega) htb, rfl, rfl, rfl⟩⟩

/-- Forward computation of `allocate` when a block is found at level `f`. -/
theorem allocate_found {gf : Bool} {n t f a : Nat} {rest : List Nat} {s : State}
    (hlk : levelLookup n = some t) (htf : t ≤ f) (hf7 : f < maxLevels)
    (hempty : ∀ k, t ≤ k → k < f → s.fLists k = []) (hl : s.fLists f = a :: rest) :
    allocate gf n s = .ok (a, levelSize t, splitDown a t f (setList s f rest)) := by
  simp only [allocate, hlk]
  rw [takeBlock_eq_some maxLevels t (by omega) s f a rest htf hf7 hempty hl]

/-- Forward computation of `allocate` on the growth path. -/
theorem allocate_growth {n t : Nat} {s : State} (hlk : levelLookup n = some t)
    (hempty : ∀ k, t ≤ k → k < maxLevels → s.fLists k = []) :
    allocate false n s = .ok (s.brk, levelSize t,
      splitDown s.brk t (maxLevels - 1) { s with brk := s.brk + maxSize }) := by
  simp only [allocate, hlk]
  rw [takeBlock_eq_none maxLevels t (by omega) s hempty]
  simp only [Bool.false_eq_true, if_false]

/-- Inversion of `deallocate` for a non-null block of a valid granted size. -/
theorem deallocate_some_inv {a g : Nat} {s s1 : State} (ha : a ≠ 0) {t : Nat}
    (hlk : levelLookup g = some t) (h : deallocate a g s = some s1) :
    s1 = emplace (mergeLoop maxLevels a g t s).2.2.2 (mergeLoop maxLevels a g t s).2.2.1
      (mergeLoop maxLevels a g t s).1 := by
  unfold deallocate at h
  rw [if_neg ha, hlk] at h
  exact (Option.some.inj h).symm

/-- Forward computation of `deallocate` for a non-null block. -/
theorem deallocate_some {a g : Nat} {s : State} (ha : a ≠ 0) {t : Nat}
    (hlk : levelLookup g = some t) :
    deallocate a g s = some (emplace (mergeLoop maxLevels a g t s).2.2.2
      (mergeLoop maxLevels a g t s).2.2.1 (mergeLoop maxLevels a g t s).1) := by
  unfold deallocate
  rw [if_neg ha, hlk]

/-! ### Reachable-state invariants -/

/-- No free list below the top level ever holds both a block and that
block's buddy. -/
def NoPair (s : State) : Prop :=
  ∀ l, l < maxLevels - 1 → ∀ x ∈ s.fLists l, (x ^^^ levelSize l) ∉ s.fLists l

/-- Every outstanding handle's granted size is a configured level size. -/
def HandlesValid (c : Config) : Prop :=
  ∀ p ∈ c.handles, ∃ t, t ≤ 7 ∧ p.2 = levelSize t

/-- Every free block has a non-null address. -/
def AllPos (s : State) : Prop := ∀ l, ∀ x ∈ s.fLists l, 0 < x

/-- Every free block at level `l` is aligned to `levelSize l`. -/
def AllAligned (s : State) : Prop := ∀ l, ∀ x ∈ s.fLists l, x % levelSize l = 0

/-- Every outstanding block is aligned to its granted size. -/
def HandlesAligned (c : Config) : Prop := ∀ p ∈ c.handles, p.1 % p.2 = 0

/-- The combined invariant of every reachable configuration: the no-buddy-pair
property and handle validity hold unconditionally; positivity holds whenever
the initial break is non-null; the alignment invariants hold whenever the
initial break is `maxSize`-aligned. -/
theorem reachable_inv {brk0 : Nat} {c : Config} (h : Reachable brk0 c) :
    (NoPair c.s ∧ HandlesValid c) ∧
    (0 < brk0 → AllPos c.s ∧ 0 < c.s.brk) ∧
    (brk0 % maxSize = 0 → AllAligned c.s ∧ HandlesAligned c ∧ c.s.brk % maxSize = 0) := by
  induction h with
  | init =>
    refine ⟨⟨fun l _ x hx => absurd hx (List.not_mem_nil x),
      fun p hp => absurd hp (List.not_mem_nil p)⟩,
      fun h0 => ⟨fun l x hx => absurd hx (List.not_mem_nil x), h0⟩,
      fun hal => ⟨fun l x hx => absurd hx (List.not_mem_nil x),
        fun p hp => absurd hp (List.not_mem_nil p), hal⟩⟩
  | @alloc c gf n a g s1 hr hok ih =>
    obtain ⟨⟨hNP, hHV⟩, hPos, hAl⟩ := ih
    obtain ⟨t, hlk, ht7, hg, hcase⟩ := allocate_ok_inv hok
    rcases hcase with ⟨f, rest, htf, hf8, hempty, hlf, hs1⟩ | ⟨hempty, hgf, ha, hs1⟩
    · -- a block was found at level f and split down
      have hs1l : ∀ k, s1.fLists k =
          if t ≤ k ∧ k < f then [a + levelSize k]
          else if k = f then rest else c.s.fLists k := by
        intro k
        rw [hs1, splitDown_fLists]
        by_cases hk : t ≤ k ∧ k < f
        · rw [if_pos hk, if_pos hk, setList_fLists, if_neg (by omega),
            hempty k hk.1 hk.2]
        · rw [if_neg hk, if_neg hk, setList_fLists]
      have hbrk1 : s1.brk = c.s.brk := by
        rw [hs1, splitDown_brk, setList_brk]
      have hmemf : a ∈ c.s.fLists f := by
        rw [hlf]; exact List.mem_cons_self a rest
      refine ⟨⟨?_, ?_⟩, ?_, ?_⟩
      · intro l hl7 x hx hx2
        rw [hs1l] at hx hx2
        by_cases hk : t ≤ l ∧ l < f
        · rw [if_pos hk] at hx hx2
          have hxv : x = a + levelSize l := List.mem_singleton.mp hx
          have hxv2 : x ^^^ levelSize l = a + levelSize l := List.mem_singleton.mp hx2
          exact levelSize_xor_ne x l (by rw [hxv2, ← hxv])
        · rw [if_neg hk] at hx hx2
          by_cases hkf : l = f
          · rw [if_pos hkf] at hx hx2
            subst hkf
            have hx3 : x ∈ c.s.fLists l := by rw [hlf]; exact List.mem_cons_of_mem _ hx
            exact hNP l hl7 x hx3 (by rw [hlf]; exact List.mem_cons_of_mem _ hx2)
          · rw [if_neg hkf] at hx hx2
            exact hNP l hl7 x hx hx2
      · intro p hp
        rcases List.mem_cons.mp hp with hp1 | hp2
        · exact ⟨t, ht7, by rw [hp1, hg]⟩
        · exact hHV p hp2
      · intro h0
        obtain ⟨hP, hB⟩ := hPos h0
        refine ⟨?_, by rw [hbrk1]; exact hB⟩
        intro l x hx
        rw [hs1l] at hx
        by_cases hk : t ≤ l ∧ l < f
        · rw [if_pos hk] at hx
          have := levelSize_pos l
          have := List.mem_singleton.mp hx
          omega
        · rw [if_neg hk] at hx
          by_cases hkf : l = f
          · rw [if_pos hkf] at hx
            exact hP f x (by rw [hlf]; exact List.mem_cons_of_mem _ hx)
          · rw [if_neg hkf] at hx
            exact hP l x hx
      · intro hal
        obtain ⟨hA, hHA, hB⟩ := hAl hal
        have haf : a % levelSize f = 0 := hA f a hmemf
        refine ⟨?_, ?_, by rw [hbrk1]; exact hB⟩
        · intro l x hx
          rw [hs1l] at hx
          by_cases hk : t ≤ l ∧ l < f
          · rw [if_pos hk] at hx
            rw [List.mem_singleton.mp hx]
            exact aligned_add_level haf (by omega)
          · rw [if_neg hk] at hx
            by_cases hkf : l = f
            · rw [if_pos hkf] at hx
              subst hkf
              exact hA l x (by rw [hlf]; exact List.mem_cons_of_mem _ hx)
            · rw [if_neg hkf] at hx
              exact hA l x hx
        · intro p hp
          rcases List.mem_cons.mp hp with hp1 | hp2
          · rw [hp1, hg]
            exact aligned_mono haf htf
          · exact hHA p hp2
    · -- no block anywhere: the heap grew by one maxSize block at the top
      have hs1l : ∀ k, s1.fLists k =
          if t ≤ k ∧ k < maxLevels - 1 then [a + levelSize k] else c.s.fLists k := by
        intro k
        rw [hs1, splitDown_fLists, ha]
        by_cases hk : t ≤ k ∧ k < maxLevels - 1
        · rw [if_pos hk, if_pos hk, hempty k hk.1 (by omega)]
        · rw [if_neg hk, if_neg hk]
      have hbrk1 : s1.brk = c.s.brk + maxSize := by
        rw [hs1, splitDown_brk]
      refine ⟨⟨?_, ?_⟩, ?_, ?_⟩
      · intro l hl7 x hx hx2
        rw [hs1l] at hx hx2
        by_cases hk : t ≤ l ∧ l < maxLevels - 1
        · rw [if_pos hk] at hx hx2
          have hxv : x = a + levelSize l := List.mem_singleton.mp hx
          have hxv2 : x ^^^ levelSize l = a + levelSize l := List.mem_singleton.mp hx2
          exact levelSize_xor_ne x l (by rw [hxv2, ← hxv])
        · rw [if_neg hk] at hx hx2
          exact hNP l hl7 x hx hx2
      · intro p hp
        rcases List.mem_cons.mp hp with hp1 | hp2
        · exact ⟨t, ht7, by rw [hp1, hg]⟩
        · exact hHV p hp2
      · intro h0
        obtain ⟨hP, hB⟩ := hPos h0
        refine ⟨?_, by rw [hbrk1]; have := maxSize_pos; omega⟩
        intro l x hx
        rw [hs1l] at hx
        by_cases hk : t ≤ l ∧ l < maxLevels - 1
        · rw [if_pos hk] at hx
          have := levelSize_pos l
          have := List.mem_singleton.mp hx
          omega
        · rw [if_neg hk] at hx
          exact hP l x hx
      · intro hal
        obtain ⟨hA, hHA, hB⟩ := hAl hal
        have haf : a % levelSize (maxLevels - 1) = 0 := by
          rw [ha]
          exact hB
        refine ⟨?_, ?_, by rw [hbrk1, Nat.add_mod_right]; exact hB⟩
        · intro l x hx
          rw [hs1l] at hx
          by_cases hk : t ≤ l ∧ l < maxLevels - 1
          · rw [if_pos hk] at hx
            rw [List.mem_singleton.mp hx]
            exact aligned_add_level haf (by omega)
          · rw [if_neg hk] at hx
            exact hA l x hx
        · intro p hp
          rcases List.mem_cons.mp hp with hp1 | hp2
          · rw [hp1, hg]
            exact aligned_mono haf (by rw [maxLevels_eq]; omega)
          · exact hHA p hp2
  | @dealloc c a g s1 hr hmem hd ih =>
    obtain ⟨⟨hNP, hHV⟩, hPos, hAl⟩ := ih
    by_cases ha : a = 0
    · -- freeing a null block is a no-op
      have hs1 : s1 = c.s := by
        unfold deallocate at hd
        rw [if_pos ha] at hd
        exact (Option.some.inj hd).symm
      subst hs1
      exact ⟨⟨hNP, fun p hp => hHV p (List.mem_of_mem_erase hp)⟩, hPos,
        fun hal => ⟨(hAl hal).1, fun p hp => (hAl hal).2.1 p (List.mem_of_mem_erase hp),
          (hAl hal).2.2⟩⟩
    · obtain ⟨t, ht7, hg0⟩ := hHV (a, g) hmem
      have hg : g = levelSize t := hg0
      have hlk : levelLookup g = some t := by rw [hg]; exact levelLookup_levelSize ht7
      obtain ⟨m, k, s2, heq, hk1, hk2, hbrk, hsub, hexit, hposm, halignm⟩ :=
        mergeLoop_inv maxLevels t a c.s ht7 (by rw [maxLevels_eq]; omega)
      have hgls : g = levelSize t := hg
      have hs1 : s1 = emplace s2 k m := by
        have h2 := deallocate_some_inv ha hlk hd
        rw [hgls] at h2
        rw [heq] at h2
        exact h2
      have hs1l : ∀ l, s1.fLists l = if l = k then m :: s2.fLists k else s2.fLists l := by
        intro l
        rw [hs1, emplace_fLists]
      refine ⟨⟨?_, fun p hp => hHV p (List.mem_of_mem_erase hp)⟩, ?_, ?_⟩
      · intro l hl7 x hx hx2
        have hl7b : l < 7 := by rw [maxLevels_eq] at hl7; omega
        rw [hs1l] at hx hx2
        by_cases hlk2 : l = k
        · rw [if_pos hlk2] at hx hx2
          subst hlk2
          rcases List.mem_cons.mp hx with hxm | hxs
          · subst hxm
            rcases List.mem_cons.mp hx2 with hxm2 | hxs2
            · exact levelSize_xor_ne x l hxm2
            · exact hexit (by omega) hxs2
          · rcases List.mem_cons.mp hx2 with hxm2 | hxs2
            · have hmx : m ^^^ levelSize l = x := by
                rw [← hxm2, xor_pow_involution]
              exact hexit (by omega) (hmx ▸ hxs)
            · exact absurd (hsub l _ hxs2) (hNP l hl7 x (hsub l x hxs))
        · rw [if_neg hlk2] at hx hx2
          exact absurd (hsub l _ hx2) (hNP l hl7 x (hsub l x hx))
      · intro h0
        obtain ⟨hP, hB⟩ := hPos h0
        refine ⟨?_, by rw [hs1, emplace_brk, hbrk]; exact hB⟩
        intro l x hx
        rw [hs1l] at hx
        by_cases hlk2 : l = k
        · rw [if_pos hlk2] at hx
          rcases List.mem_cons.mp hx with hxm | hxs
          · rw [hxm]
            exact hposm (by omega) hP
          · exact hP l x (hsub l x (hlk2 ▸ hxs))
        · rw [if_neg hlk2] at hx
          exact hP l x (hsub l x hx)
      · intro hal
        obtain ⟨hA, hHA, hB⟩ := hAl hal
        have hat : a % levelSize t = 0 := by
          have := hHA (a, g) hmem
          rw [hg] at this
          exact this
        refine ⟨?_, fun p hp => hHA p (List.mem_of_mem_erase hp), by
          rw [hs1, emplace_brk, hbrk]; exact hB⟩
        intro l x hx
        rw [hs1l] at hx
        by_cases hlk2 : l = k
        · rw [if_pos hlk2] at hx
          rcases List.mem_cons.mp hx with hxm | hxs
          · rw [hxm, hlk2]
            exact halignm hat
          · exact hA l x (hsub l x (hlk2 ▸ hxs))
        · rw [if_neg hlk2] at hx
          exact hA l x (hsub l x hx)

/-- C5: from every reachable allocator state (with a non-null heap), allocating,
releasing the returned block, and allocating the same size again returns the
same address, with no heap growth (the second allocation succeeds even if
`sbrk` would fail, and leaves the break unchanged). -/
theorem c5_round_trip {brk0 : Nat} {c : Config} {n a g : Nat} {s1 s2 : State}
    (hr : Reachable brk0 c) (h0 : 0 < brk0)
    (hok : allocate false n c.s = .ok (a, g, s1))
    (hd : deallocate a g s1 = some s2) :
    ∀ gf : Bool, ∃ s3, allocate gf n s2 = .ok (a, g, s3) ∧ s3.brk = s2.brk := by
  obtain ⟨⟨hNP, _⟩, hPos, _⟩ := reachable_inv hr
  obtain ⟨hP, hB⟩ := hPos h0
  obtain ⟨t, hlk, ht7, hg, hcase⟩ := allocate_ok_inv hok
  have hlkg : levelLookup g = some t := by rw [hg]; exact levelLookup_levelSize ht7
  rcases hcase with ⟨f, rest, htf, hf8, hempty, hlf, hs1⟩ | ⟨hempty, hgf, ha, hs1⟩
  · -- first allocation took the head of level f
    have hf7 : f ≤ 7 := by rw [maxLevels_eq] at hf8; omega
    have hmemf : a ∈ c.s.fLists f := by rw [hlf]; exact List.mem_cons_self a rest
    have ha0 : a ≠ 0 := by have := hP f a hmemf; omega
    have hs1l : ∀ k, s1.fLists k =
        if t ≤ k ∧ k < f then [a + levelSize k]
        else if k = f then rest else c.s.fLists k := by
      intro k
      rw [hs1, splitDown_fLists]
      by_cases hk : t ≤ k ∧ k < f
      · rw [if_pos hk, if_pos hk, setList_fLists, if_neg (by omega), hempty k hk.1 hk.2]
      · rw [if_neg hk, if_neg hk, setList_fLists]
    have hbrk1 : s1.brk = c.s.brk := by rw [hs1, splitDown_brk, setList_brk]
    obtain ⟨kx, sx, hkx1, hkx2, heq, hemp, huntouched, hbrkx, hstopx⟩ :=
      mergeLoop_chain maxLevels t a s1 f htf hf7 (by rw [maxLevels_eq]; omega)
        (fun k hk1 hk2 => by rw [hs1l, if_pos ⟨hk1, hk2⟩])
        (fun hflt => by
          rw [hs1l, if_neg (by omega), if_pos rfl]
          have hnp := hNP f (by rw [maxLevels_eq]; omega) a hmemf
          rw [hlf] at hnp
          exact fun hc => hnp (List.mem_cons_of_mem _ hc))
    have hd2 := deallocate_some (s := s1) ha0 hlkg
    rw [hg, heq] at hd2
    have hs2 : s2 = emplace sx kx a := by
      rw [hg, hd2] at hd
      exact (Option.some.inj hd).symm
    have hs2l : ∀ l, s2.fLists l = if l = kx then a :: sx.fLists kx else sx.fLists l := by
      intro l
      rw [hs2, emplace_fLists]
    intro gf
    refine ⟨splitDown a t kx (setList s2 kx (sx.fLists kx)), ?_, ?_⟩
    · rw [hg]
      exact allocate_found hlk hkx1 (by rw [maxLevels_eq]; omega)
        (fun k hk1 hk2 => by
          rw [hs2l, if_neg (by omega)]
          exact hemp k hk1 hk2)
        (by rw [hs2l, if_pos rfl])
    · rw [splitDown_brk, setList_brk]
  · -- first allocation grew the heap
    have ha0 : a ≠ 0 := by rw [ha]; omega
    have hs1l : ∀ k, s1.fLists k =
        if t ≤ k ∧ k < maxLevels - 1 then [a + levelSize k] else c.s.fLists k := by
      intro k
      rw [hs1, splitDown_fLists, ha]
      by_cases hk : t ≤ k ∧ k < maxLevels - 1
      · rw [if_pos hk, if_pos hk, hempty k hk.1 (by omega)]
      · rw [if_neg hk, if_neg hk]
    have hbrk1 : s1.brk = c.s.brk + maxSize := by rw [hs1, splitDown_brk]
    obtain ⟨kx, sx, hkx1, hkx2, heq, hemp, huntouched, hbrkx, hstopx⟩ :=
      mergeLoop_chain maxLevels t a s1 7 ht7 le_rfl (by rw [maxLevels_eq]; omega)
        (fun k hk1 hk2 => by rw [hs1l, if_pos ⟨hk1, by rw [maxLevels_eq]; omega⟩])
        (fun hflt => by omega)
    have hd2 := deallocate_some (s := s1) ha0 hlkg
    rw [hg, heq] at hd2
    have hs2 : s2 = emplace sx kx a := by
      rw [hg, hd2] at hd
      exact (Option.some.inj hd).symm
    have hs2l : ∀ l, s2.fLists l = if l = kx then a :: sx.fLists kx else sx.fLists l := by
      intro l
      rw [hs2, emplace_fLists]
    intro gf
    refine ⟨splitDown a t kx (setList s2 kx (sx.fLists kx)), ?_, ?_⟩
    · rw [hg]
      exact allocate_found hlk hkx1 (by rw [maxLevels_eq]; omega)
        (fun k hk1 hk2 => by
          rw [hs2l, if_neg (by omega)]
          exact hemp k hk1 hk2)
        (by rw [hs2l, if_pos rfl])
    · rw [splitDown_brk, setList_brk]

/-! ### Agreement between the source loops and the spec-worded loops -/

/-- The implementation's bubble-up loop agrees with the spec-worded one: the
implementation threads the block size explicitly, the spec version keeps it
as `levelSize` of the current level. -/
theorem mergeLoop_specBubble : ∀ (f1 f2 lv a : Nat) (s : State), lv ≤ 7 →
    7 - lv < f1 → 7 - lv < f2 →
    mergeLoop f1 a (levelSize lv) lv s =
      ((specBubble f2 a lv s).1, levelSize (specBubble f2 a lv s).2.1,
        (specBubble f2 a lv s).2.1, (specBubble f2 a lv s).2.2) := by
  intro f1
  induction f1 with
  | zero => intro f2 lv a s hlv hf1 hf2; omega
  | succ n ih =>
    intro f2 lv a s hlv hf1 hf2
    obtain ⟨m, hm⟩ : ∃ m, f2 = m + 1 := ⟨f2 - 1, by omega⟩
    subst hm
    by_cases htop : levelSize lv = maxSize
    · rw [mergeLoop, if_pos htop, specBubble, if_pos htop]
    · have hlv7 : lv < 7 := by
        have : lv ≠ 7 := fun hc => htop (by rw [hc]; rfl)
        omega
      rw [mergeLoop, if_neg htop, specBubble, if_neg htop]
      by_cases hmem : (a ^^^ levelSize lv) ∈ s.fLists lv
      · rw [if_pos hmem, if_pos hmem, ← levelSize_succ]
        exact ih m (lv + 1) _ _ (by omega) (by omega) (by omega)
      · rw [if_neg hmem, if_neg hmem]

/-- The spec-worded split loop is the implementation's split loop. -/
theorem specSplit_eq_splitDown : ∀ (found addr target : Nat) (s : State),
    specSplit addr target found s = splitDown addr target found s := by
  intro found
  induction found with
  | zero =>
    intro addr target s
    rw [specSplit, splitDown]
  | succ c ih =>
    intro addr target s
    rw [specSplit, splitDown]
    by_cases h : target < c + 1
    · rw [if_pos h, if_pos h]
      exact ih addr target _
    · rw [if_neg h, if_neg h]

/-- The implementation's search loop agrees with the spec's
"first non-empty level, take its head" description. -/
theorem takeBlock_vs_firstFree : ∀ (m l : Nat), maxLevels - l ≤ m → ∀ s : State,
    (firstFree s l = none ∧ takeBlock s l = none) ∨
    (∃ f, firstFree s l = some f ∧
      takeBlock s l = some ((s.fLists f).headD 0, f, setList s f (s.fLists f).tail)) := by
  intro m
  induction m with
  | zero =>
    intro l hl s
    left
    constructor
    · rw [firstFree, show maxLevels - l = 0 by omega]
      rfl
    · rw [takeBlock_eq, if_neg (by omega)]
  | succ n ih =>
    intro l hl s
    by_cases hlt : l < maxLevels
    · have hrange : List.range' l (maxLevels - l) = l :: List.range' (l + 1) (maxLevels - (l + 1)) := by
        rw [show maxLevels - l = (maxLevels - (l + 1)) + 1 by omega]
        rw [List.range'_succ]
      cases hfl : s.fLists l with
      | nil =>
        have hff : firstFree s l = firstFree s (l + 1) := by
          rw [firstFree, hrange, List.find?_cons_of_neg, firstFree]
          simp [hfl]
        have htb : takeBlock s l = takeBlock s (l + 1) := by
          rw [takeBlock_eq, if_pos hlt, hfl]
        rcases ih (l + 1) (by omega) s with ⟨h1, h2⟩ | ⟨f, h1, h2⟩
        · left
          exact ⟨hff.trans h1, htb.trans h2⟩
        · right
          exact ⟨f, hff.trans h1, htb.trans h2⟩
      | cons a rest =>
        right
        refine ⟨l, ?_, ?_⟩
        · rw [firstFree, hrange, List.find?_cons_of_pos]
          simp [hfl]
        · rw [takeBlock_eq, if_pos hlt, hfl]
          rfl
    · left
      constructor
      · rw [firstFree, show maxLevels - l = 0 by omega]
        rfl
      · rw [takeBlock_eq, if_neg hlt]

/-! ### Helpers for concrete bubble-up computations -/

theorem mergeLoop_step (fuel mem size lv : Nat) (s : State) (hsz : size ≠ maxSize) :
    mergeLoop (fuel + 1) mem size lv s =
      if (mem ^^^ levelSize lv) ∈ s.fLists lv then
        mergeLoop fuel (mem - (mem &&& levelSize lv)) (size <<< 1) (lv + 1)
          (setList s lv ((s.fLists lv).erase (mem ^^^ levelSize lv)))
      else (mem, size, lv, s) := by
  rw [mergeLoop, if_neg hsz]

theorem mergeLoop_exit (fuel mem size lv : Nat) (s : State) (hsz : size ≠ maxSize)
    (hnot : (mem ^^^ levelSize lv) ∉ s.fLists lv) :
    mergeLoop (fuel + 1) mem size lv s = (mem, size, lv, s) := by
  rw [mergeLoop_step fuel mem size lv s hsz, if_neg hnot]

theorem add_xor_cancel {b k : Nat} (h : b.testBit (k + 5) = false) :
    (b + levelSize k) ^^^ levelSize k = b := by
  rw [← levelSize_xor_false h, xor_pow_involution]

theorem testBit_add_levelSize {b k : Nat} (h : b.testBit (k + 5) = false) :
    (b + levelSize k).testBit (k + 5) = true := by
  rw [levelSize_eq_pow, Nat.add_comm, Nat.testBit_two_pow_add_eq, h]
  rfl

/-- Every sub-top bit of a `maxSize`-aligned address is clear. -/
theorem top_aligned_bit_clear {b k : Nat} (hal : b % maxSize = 0) (hk : k < 7) :
    b.testBit (k + 5) = false :=
  levelSize_testBit_false (c := 7) hal hk

/-! ### The claims -/

/-- C1 (amended): for every request `0 < n ≤ maxSize` on which `allocate`
returns normally, the granted size is the smallest configured level size
`≥ n` (in particular it is `≥ n` and equals exactly one level size).  The
original claim's second half, for every `n > 0`, fails for `n > maxSize`
(see the counterexample). -/
theorem c1_granted_size {gf : Bool} {n a g : Nat} {s s1 : State}
    (h1 : 0 < n) (h2 : n ≤ maxSize) (hok : allocate gf n s = .ok (a, g, s1)) :
    n ≤ g ∧ ∃ l, l ≤ 7 ∧ g = levelSize l ∧
      ∀ l2, n ≤ levelSize l2 → levelSize l ≤ levelSize l2 := by
  obtain ⟨t, hlk, ht7, hg, _⟩ := allocate_ok_inv hok
  rw [maxSize_eq] at h2
  by_cases hsmall : n ≤ 2048
  · obtain ⟨l, hl, hge, hmin, h6⟩ := levelLookup_char hsmall
    have hlt : l = t := Option.some.inj (hl.symm.trans hlk)
    subst hlt
    refine ⟨by omega, ⟨l, by omega, hg, ?_⟩⟩
    intro l2 hl2
    rcases hmin with h0 | hstrict
    · rw [h0]
      exact levelSize_le_iff.mpr (by omega)
    · have hll : ¬ (levelSize l ≤ levelSize l2) → l2 ≤ l - 1 := by
        intro hc
        have : ¬ l ≤ l2 := fun hle => hc (levelSize_le_iff.mpr hle)
        omega
      by_contra hc
      have hl21 : l2 ≤ l - 1 := hll hc
      have : levelSize l2 ≤ levelSize (l - 1) := levelSize_le_iff.mpr hl21
      omega
  · by_cases h2049 : n = 2049
    · subst h2049
      rw [levelLookup_oob] at hlk
      cases hlk
    · have hbig : 2049 < n := by omega
      rw [levelLookup_gt hbig] at hlk
      have ht : t = 7 := (Option.some.inj hlk).symm
      subst ht
      have hls7 : levelSize 7 = 4096 := rfl
      refine ⟨by omega, ⟨7, le_rfl, hg, ?_⟩⟩
      intro l2 hl2
      have h6 : levelSize 6 = 2048 := rfl
      have hn6 : ¬ l2 ≤ 6 := fun hle => by
        have := levelSize_le_iff.mpr hle
        omega
      exact levelSize_le_iff.mpr (by omega)

/-- C1 counterexample: `allocate(4097)` returns normally (here: after one
heap growth) but grants only 4096 < 4097 bytes, refuting "for every n > 0 on
which allocate returns normally, the granted size is ≥ n". -/
theorem c1_counterexample :
    (allocate false 4097 (initState 4096)).toOption.map (fun r => r.2.1) = some 4096 ∧
      (4096 : Nat) < 4097 :=
  ⟨rfl, by omega⟩

/-- C1 witness: requesting 40 bytes grants 64, the smallest sufficient level
size. -/
theorem c1_witness :
    (40 : Nat) ≤ 64 ∧ ∃ l, l ≤ 7 ∧ (64 : Nat) = levelSize l ∧
      ∀ l2, 40 ≤ levelSize l2 → levelSize l ≤ levelSize l2 :=
  c1_granted_size (by omega) (by rw [maxSize_eq]; omega)
    (show allocate false 40 (initState 4096) = .ok (4096, 64, _) from rfl)

/-- C2 (code bug, failing input `sz = 2049`): the request 2049 is `≤ maxSize`,
the guard `sz > reverseLookup.size()` does not divert it to the top level
(`¬ 2049 > 2049`), yet the table has no entry at index 2049 — its largest
index is `maxSize/2 = 2048` — so `allocate` reads `reverseLookup` out of
bounds (modelled as the `oobRead` error). -/
theorem c2_oob_read :
    2049 ≤ maxSize ∧ ¬ ((2049 : Nat) > revLen) ∧
      reverseLookup.get? 2049 = none ∧ levelLookup 2049 = none ∧
      allocate false 2049 (initState 4096) = .error .oobRead := by
  refine ⟨by rw [maxSize_eq]; omega, by rw [revLen_eq]; omega, ?_, levelLookup_oob, ?_⟩
  · exact List.get?_eq_none.mpr (by rw [reverseLookup_length, revLen_eq])
  · simp only [allocate, levelLookup_oob]

/-- C3: on a non-null block whose size is exactly a configured level size,
`deallocate` is precisely the spec's coalescing procedure: starting at the
exact level of the size, repeatedly remove the buddy `address XOR
levelSizeOf(level)` from that level's list if and only if it is present,
replacing the block by `{address AND NOT levelSizeOf(level), doubled size}`
one level up, until the buddy is absent or the size is `maxSize`; then
insert the block at its final level. -/
theorem c3_deallocate_refines (a size : Nat) (s : State) (ha : a ≠ 0)
    {t : Nat} (hex : exactLevel size = some t) :
    deallocate a size s = deallocSpec a size s := by
  have hex2 : (List.range maxLevels).find? (fun l => decide (levelSize l = size)) = some t :=
    hex
  have hfs := List.find?_some hex2
  have hp : levelSize t = size := of_decide_eq_true hfs
  have ht8 : t < maxLevels := List.mem_range.mp (List.mem_of_find?_eq_some hex2)
  have ht7 : t ≤ 7 := by rw [maxLevels_eq] at ht8; omega
  have hlk : levelLookup size = some t := by rw [← hp]; exact levelLookup_levelSize ht7
  rw [deallocate_some ha hlk]
  simp only [deallocSpec, hex]
  rw [← hp,
    mergeLoop_specBubble maxLevels (maxLevels - t) t a s ht7 (by rw [maxLevels_eq]; omega)
      (by rw [maxLevels_eq]; omega)]

/-- C3 witness: freeing the 32-byte block at 4096 in the empty store inserts
it at level 0, exactly as the spec procedure does. -/
theorem c3_witness :
    deallocate 4096 32 (initState 4096) = deallocSpec 4096 32 (initState 4096) :=
  c3_deallocate_refines 4096 32 (initState 4096) (by omega) (show exactLevel 32 = some 0 from rfl)

/-- C4: `allocate` (with the growth primitive available) is precisely the
spec's procedure for its target level: take the head of the first non-empty
level scanning upward from the target, or grow the heap by one top-level
block; split downward, keeping the lower half and inserting each upper half
`block + newSize`; return the kept address with `levelSizeOf(target)`. -/
theorem c4_allocate_refines (n t : Nat) (s : State) (hlk : levelLookup n = some t) :
    allocate false n s = .ok (allocSpec t s) := by
  rcases takeBlock_vs_firstFree maxLevels t (by omega) s with ⟨hff, htb⟩ | ⟨f, hff, htb⟩
  · rw [allocate_growth hlk (takeBlock_none_inv maxLevels t (by omega) htb)]
    simp only [allocSpec, hff]
    rw [specSplit_eq_splitDown]
  · simp only [allocate, hlk]
    rw [htb]
    simp only [allocSpec, hff]
    rw [specSplit_eq_splitDown]

/-- C4 witness: a concrete 32-byte allocation follows the spec procedure. -/
theorem c4_witness :
    allocate false 32 (initState 4096) = .ok (allocSpec 0 (initState 4096)) :=
  c4_allocate_refines 32 0 (initState 4096) (show levelLookup 32 = some 0 from rfl)

/-- C8: for any request with a defined target level, `allocate` raises
`OutOfMemory` if and only if every free list from the target to the top is
empty and the heap-growth primitive fails; the error is produced before any
insertion or extraction (the failing call returns no state at all in this
embedding, mirroring that the C++ `throw` happens before any `emplace`). -/
theorem c8_oom_iff (gf : Bool) (sz t : Nat) (s : State) (hlk : levelLookup sz = some t) :
    allocate gf sz s = .error .outOfMemory ↔
      (gf = true ∧ ∀ l, t ≤ l → l < maxLevels → s.fLists l = []) := by
  constructor
  · intro h
    cases htb : takeBlock s t with
    | some r =>
      obtain ⟨mem, cl, st⟩ := r
      simp only [allocate, hlk, htb] at h
      cases h
    | none =>
      cases gf with
      | false =>
        simp only [allocate, hlk, htb, Bool.false_eq_true, if_false] at h
        cases h
      | true =>
        exact ⟨rfl, takeBlock_none_inv maxLevels t (by omega) htb⟩
  · rintro ⟨hgf, hempty⟩
    subst hgf
    simp only [allocate, hlk, takeBlock_eq_none maxLevels t (by omega) s hempty, if_true]

/-- C8 witness: on the empty store with `sbrk` failing, a 32-byte request
raises `OutOfMemory`; with any list non-empty or `sbrk` working it does
not. -/
theorem c8_witness :
    allocate true 32 (initState 4096) = .error .outOfMemory ↔
      (true = true ∧ ∀ l, 0 ≤ l → l < maxLevels → (initState 4096).fLists l = []) :=
  c8_oom_iff true 32 0 (initState 4096) (show levelLookup 32 = some 0 from rfl)

/-- C9: releasing an empty handle (null address) is a no-op that changes
neither the store nor the handle; a successful release nulls the handle to
`{0, 0}`, so releasing the same handle instance again is a no-op. -/
theorem c9_handle_nulling (al : Allocation) (s : State) :
    (al.memory = 0 → deallocateH al s = some (al, s)) ∧
    (∀ al2 s2, deallocateH al s = some (al2, s2) → al.memory ≠ 0 →
      al2 = ⟨0, 0⟩ ∧ deallocateH al2 s2 = some (al2, s2)) := by
  constructor
  · intro h
    unfold deallocateH
    rw [if_pos h]
  · intro al2 s2 h hne
    unfold deallocateH at h
    rw [if_neg hne] at h
    cases hdd : deallocate al.memory al.size s with
    | none =>
      rw [hdd] at h
      cases h
    | some s1 =>
      rw [hdd] at h
      obtain ⟨h1, h2⟩ : (⟨0, 0⟩ : Allocation) = al2 ∧ s1 = s2 := by
        injection h with h3
        injection h3 with h4 h5
        exact ⟨h4, h5⟩
      refine ⟨h1.symm, ?_⟩
      rw [← h1]
      unfold deallocateH
      rw [if_pos rfl]

/-- C9 witness: a null handle is released as a no-op. -/
theorem c9_witness :
    deallocateH ⟨0, 32⟩ (initState 4096) = some (⟨0, 32⟩, initState 4096) :=
  (c9_handle_nulling ⟨0, 32⟩ (initState 4096)).1 rfl

/-- C6 (amended): starting from the empty store over a `maxSize`-aligned
heap, the two minimum-size blocks obtained by splitting one top-level block
are buddies (`a2 = a1 ^^^ minSize`), and releasing both — in either order —
leaves exactly one top-level block (the original `maxSize` block at `brk0`)
and nothing at any other level. -/
theorem c6_coalescing {brk0 : Nat} (hal : brk0 % maxSize = 0) (h0 : 0 < brk0) :
    ∃ s1 s2 : State,
      allocate false minSize (initState brk0) = .ok (brk0, minSize, s1) ∧
      allocate false minSize s1 = .ok (brk0 + minSize, minSize, s2) ∧
      brk0 + minSize = brk0 ^^^ minSize ∧
      (∀ sA sB, deallocate (brk0 + minSize) minSize s2 = some sA →
        deallocate brk0 minSize sA = some sB →
        (∀ l, l ≠ maxLevels - 1 → sB.fLists l = []) ∧
          sB.fLists (maxLevels - 1) = [brk0]) ∧
      (∀ sA sB, deallocate brk0 minSize s2 = some sA →
        deallocate (brk0 + minSize) minSize sA = some sB →
        (∀ l, l ≠ maxLevels - 1 → sB.fLists l = []) ∧
          sB.fLists (maxLevels - 1) = [brk0]) := by
  have hbit : ∀ k, k < 7 → brk0.testBit (k + 5) = false :=
    fun k hk => top_aligned_bit_clear hal hk
  have hls0 : minSize = levelSize 0 := rfl
  have hpos0 := levelSize_pos 0
  have hlk00 : levelLookup (levelSize 0) = some 0 := levelLookup_levelSize (by omega)
  have hlk0 : levelLookup minSize = some 0 := hlk00
  have h71 : maxLevels - 1 = 7 := rfl
  have hxor0 : brk0 ^^^ levelSize 0 = brk0 + levelSize 0 :=
    levelSize_xor_false (hbit 0 (by omega))
  have hszne : minSize ≠ maxSize := by decide
  have ha1ne : brk0 ≠ 0 := by omega
  have ha2ne : brk0 + minSize ≠ 0 := by omega
  -- first allocation: heap growth and full split
  obtain ⟨s1, halloc1, hs1l⟩ : ∃ s1,
      allocate false minSize (initState brk0) = .ok (brk0, minSize, s1) ∧
      ∀ k, s1.fLists k = if k < maxLevels - 1 then [brk0 + levelSize k] else [] := by
    refine ⟨_, allocate_growth hlk0 (fun k _ _ => rfl), ?_⟩
    intro k
    rw [splitDown_fLists]
    by_cases hk : k < maxLevels - 1
    · rw [if_pos ⟨by omega, hk⟩, if_pos hk]
      rfl
    · rw [if_neg (by omega), if_neg hk]
      rfl
  -- second allocation: takes the head of level 0, no further split
  obtain ⟨s2, halloc2, hs2l⟩ : ∃ s2,
      allocate false minSize s1 = .ok (brk0 + minSize, minSize, s2) ∧
      ∀ k, s2.fLists k =
        if k = 0 then [] else if k < maxLevels - 1 then [brk0 + levelSize k] else [] := by
    refine ⟨_, allocate_found hlk0 le_rfl (by rw [maxLevels_eq]; omega)
      (fun k hk1 hk2 => by omega)
      (show s1.fLists 0 = (brk0 + levelSize 0) :: [] by
        rw [hs1l, if_pos (by rw [maxLevels_eq]; omega)]), ?_⟩
    intro k
    show (setList s1 0 []).fLists k = _
    rw [setList_fLists]
    by_cases hk0 : k = 0
    · rw [if_pos hk0, if_pos hk0]
    · rw [if_neg hk0, if_neg hk0, hs1l]
  refine ⟨s1, s2, halloc1, halloc2, hxor0.symm, ?_, ?_⟩
  · -- order: release the upper half first, then the lower half
    -- upper half: its buddy (the lower half) is still allocated, no merge
    have hml1 : mergeLoop maxLevels (brk0 + minSize) minSize 0 s2 =
        (brk0 + minSize, minSize, 0, s2) := by
      rw [show (maxLevels : Nat) = 7 + 1 from rfl]
      refine mergeLoop_exit 7 _ _ _ _ hszne ?_
      rw [hls0, add_xor_cancel (hbit 0 (by omega)), hs2l, if_pos rfl]
      exact List.not_mem_nil brk0
    have hstepA : deallocate (brk0 + minSize) minSize s2 =
        some (emplace s2 0 (brk0 + minSize)) := by
      rw [deallocate_some ha2ne hlk0, hml1]
    -- lower half: merges all the way to the top
    obtain ⟨kx, sx, hkx1, hkx2, heq, hemp, huntouched, hbrkx, hstop⟩ :=
      mergeLoop_chain maxLevels 0 brk0 (emplace s2 0 (brk0 + minSize)) 7 (by omega) le_rfl
        (by rw [maxLevels_eq]; omega)
        (fun k hk1 hk2 => by
          rw [emplace_fLists]
          by_cases hk0 : k = 0
          · rw [if_pos hk0, hs2l, if_pos rfl, hk0]
            rfl
          · rw [if_neg hk0, hs2l, if_neg hk0, if_pos (by rw [maxLevels_eq]; omega)])
        (fun h7 => absurd h7 (by omega))
    have hkx7 : kx = 7 := by
      by_contra hc
      have h1 := hstop (by omega)
      have h2 := hbit kx (by omega)
      rw [h1] at h2
      cases h2
    subst hkx7
    have heq2 : mergeLoop maxLevels brk0 minSize 0 (emplace s2 0 (brk0 + minSize)) =
        (brk0, levelSize 7, 7, sx) := heq
    have hstepB : deallocate brk0 minSize (emplace s2 0 (brk0 + minSize)) =
        some (emplace sx 7 brk0) := by
      rw [deallocate_some ha1ne hlk0, heq2]
    intro sA sB h1 h2
    have hsA : sA = emplace s2 0 (brk0 + minSize) :=
      (Option.some.inj (hstepA.symm.trans h1)).symm
    subst hsA
    have hsB : sB = emplace sx 7 brk0 := (Option.some.inj (hstepB.symm.trans h2)).symm
    subst hsB
    constructor
    · intro l hl
      rw [h71] at hl
      rw [emplace_fLists, if_neg hl]
      by_cases hl7 : l < 7
      · exact hemp l (by omega) hl7
      · rw [huntouched l (by omega), emplace_fLists,
          if_neg (by omega), hs2l, if_neg (by omega), if_neg (by rw [maxLevels_eq]; omega)]
    · rw [h71, emplace_fLists, if_pos rfl, huntouched 7 (by omega), emplace_fLists,
        if_neg (by omega), hs2l, if_neg (by omega), if_neg (by rw [maxLevels_eq]; omega)]
  · -- order: release the lower half first, then the upper half
    have hml1 : mergeLoop maxLevels brk0 minSize 0 s2 = (brk0, minSize, 0, s2) := by
      rw [show (maxLevels : Nat) = 7 + 1 from rfl]
      refine mergeLoop_exit 7 _ _ _ _ hszne ?_
      rw [hxor0, hs2l, if_pos rfl]
      exact List.not_mem_nil _
    have hstepA : deallocate brk0 minSize s2 = some (emplace s2 0 brk0) := by
      rw [deallocate_some ha1ne hlk0, hml1]
    -- upper half: one merge with the lower half, then on to the top
    have hbitA : (brk0 + levelSize 0).testBit (0 + 5) = true :=
      testBit_add_levelSize (hbit 0 (by omega))
    have hstep1 : mergeLoop maxLevels (brk0 + minSize) minSize 0 (emplace s2 0 brk0) =
        mergeLoop 7 brk0 (levelSize 1) 1 (setList (emplace s2 0 brk0) 0 []) := by
      rw [show (maxLevels : Nat) = 7 + 1 from rfl]
      rw [mergeLoop_step 7 _ _ _ _ hszne]
      rw [hls0, add_xor_cancel (hbit 0 (by omega))]
      rw [if_pos (by
        rw [emplace_fLists, if_pos rfl]
        exact List.mem_cons_self _ _)]
      rw [levelSize_clear_true hbitA, add_xor_cancel (hbit 0 (by omega)), ← levelSize_succ]
      rw [emplace_fLists, if_pos rfl, hs2l, if_pos rfl, List.erase_cons_head]
    obtain ⟨kx, sx, hkx1, hkx2, heq, hemp, huntouched, hbrkx, hstop⟩ :=
      mergeLoop_chain 7 1 brk0 (setList (emplace s2 0 brk0) 0 []) 7 (by omega) le_rfl
        (by omega)
        (fun k hk1 hk2 => by
          rw [setList_fLists, if_neg (by omega), emplace_fLists, if_neg (by omega), hs2l,
            if_neg (by omega), if_pos (by rw [maxLevels_eq]; omega)])
        (fun h7 => absurd h7 (by omega))
    have hkx7 : kx = 7 := by
      by_contra hc
      have hx1 := hstop (by omega)
      have hx2 := hbit kx (by omega)
      rw [hx1] at hx2
      cases hx2
    subst hkx7
    have hstepB : deallocate (brk0 + minSize) minSize (emplace s2 0 brk0) =
        some (emplace sx 7 brk0) := by
      rw [deallocate_some ha2ne hlk0, hstep1, heq]
    intro sA sB h1 h2
    have hsA : sA = emplace s2 0 brk0 := (Option.some.inj (hstepA.symm.trans h1)).symm
    subst hsA
    have hsB : sB = emplace sx 7 brk0 := (Option.some.inj (hstepB.symm.trans h2)).symm
    subst hsB
    constructor
    · intro l hl
      rw [h71] at hl
      rw [emplace_fLists, if_neg hl]
      by_cases hl0 : l = 0
      · rw [huntouched l (by omega), setList_fLists, if_pos hl0]
      · by_cases hl7 : l < 7
        · exact hemp l (by omega) hl7
        · rw [huntouched l (by omega), setList_fLists, if_neg hl0, emplace_fLists,
            if_neg hl0, hs2l, if_neg hl0, if_neg (by rw [maxLevels_eq]; omega)]
    · rw [h71, emplace_fLists, if_pos rfl, huntouched 7 (by omega), setList_fLists,
        if_neg (by omega), emplace_fLists, if_neg (by omega), hs2l, if_neg (by omega),
        if_neg (by rw [maxLevels_eq]; omega)]

/-! ### Concrete scenario runs (used by counterexamples and witnesses) -/

/-- One 32-byte allocation from the empty store over an aligned heap. -/
def cWr : Nat × Nat × State := (allocate false 32 (initState 4096)).toOption.getD (0, 0, initState 0)

def cW : Config := ⟨cWr.2.2, [(cWr.1, cWr.2.1)]⟩

theorem cW_reach : Reachable 4096 cW :=
  @Reachable.alloc 4096 ⟨initState 4096, []⟩ false 32 cWr.1 cWr.2.1 cWr.2.2
    (@Reachable.init 4096)
    (show allocate false 32 (initState 4096) = .ok (cWr.1, cWr.2.1, cWr.2.2) from rfl)

/-- C5 witness scenario: one 33-byte allocation (level 1) from the empty
store, then its release. -/
def c5r1 : Nat × Nat × State := (allocate false 33 (initState 4096)).toOption.getD (0, 0, initState 0)

def c5s2 : State := (deallocate c5r1.1 c5r1.2.1 c5r1.2.2).getD (initState 0)

/-- C5 witness: the scenario re-allocates the same address with no growth. -/
theorem c5_witness :
    ∃ s3, allocate true 33 c5s2 = .ok (c5r1.1, c5r1.2.1, s3) ∧ s3.brk = c5s2.brk :=
  c5_round_trip (@Reachable.init 4096) (by omega)
    (show allocate false 33 (Config.mk (initState 4096) []).s =
      .ok (c5r1.1, c5r1.2.1, c5r1.2.2) from rfl)
    (show deallocate c5r1.1 c5r1.2.1 c5r1.2.2 = some c5s2 from rfl) true

/-- C6 counterexample scenario over the unaligned heap break 64: two
minimum-size blocks from splitting one top-level block, both released
(upper half first). -/
def c6r1 : Nat × Nat × State := (allocate false 32 (initState 64)).toOption.getD (0, 0, initState 0)

def c6r2 : Nat × Nat × State := (allocate false 32 c6r1.2.2).toOption.getD (0, 0, initState 0)

def c6sA : State := (deallocate c6r2.1 c6r2.2.1 c6r2.2.2).getD (initState 0)

def c6sB : State := (deallocate c6r1.1 c6r1.2.1 c6sA).getD (initState 0)

/-- C6 counterexample: with the (unaligned) heap break 64, the store starts
empty, both 32-byte allocations come from splitting the single top-level
block obtained by one growth, and they are buddies (`96 = 64 ^^^ 32`); yet
after releasing both, the free lists hold no `maxSize` block at the top
level — a 64-byte block `[64, 128)` straddling the split boundary was formed
instead. -/
theorem c6_counterexample :
    c6r1.1 = 64 ∧ c6r1.2.1 = 32 ∧ c6r2.1 = 96 ∧ c6r2.2.1 = 32 ∧
      c6r2.1 = c6r1.1 ^^^ minSize ∧
      deallocate c6r2.1 c6r2.2.1 c6r2.2.2 = some c6sA ∧
      deallocate c6r1.1 c6r1.2.1 c6sA = some c6sB ∧
      c6sB.fLists (maxLevels - 1) = [] ∧ c6sB.fLists 1 = [64, 128] :=
  ⟨rfl, rfl, rfl, rfl, by decide, rfl, rfl, rfl, rfl⟩

/-- C6 witness: the amended claim at the aligned heap break 4096. -/
theorem c6_witness :
    ∃ s1 s2 : State,
      allocate false minSize (initState 4096) = .ok (4096, minSize, s1) ∧
      allocate false minSize s1 = .ok (4096 + minSize, minSize, s2) ∧
      4096 + minSize = 4096 ^^^ minSize ∧
      (∀ sA sB, deallocate (4096 + minSize) minSize s2 = some sA →
        deallocate 4096 minSize sA = some sB →
        (∀ l, l ≠ maxLevels - 1 → sB.fLists l = []) ∧
          sB.fLists (maxLevels - 1) = [4096]) ∧
      (∀ sA sB, deallocate 4096 minSize s2 = some sA →
        deallocate (4096 + minSize) minSize sA = some sB →
        (∀ l, l ≠ maxLevels - 1 → sB.fLists l = []) ∧
          sB.fLists (maxLevels - 1) = [4096]) :=
  c6_coalescing (by decide) (by omega)

/-- C7 counterexample scenario: one allocation over the unaligned heap
break 1. -/
def c7r1 : Nat × Nat × State := (allocate false 32 (initState 1)).toOption.getD (0, 0, initState 0)

def c7Cfg : Config := ⟨c7r1.2.2, [(c7r1.1, c7r1.2.1)]⟩

/-- C7 counterexample: with heap break 1 (which `sbrk` nowhere promises to be
`maxSize`-aligned), a reachable state puts the block 33 on the level-0 free
list, and 33 is not a multiple of `levelSize 0 = 32` — so the claimed
invariant fails without an alignment assumption on the initial break. -/
theorem c7_counterexample :
    Reachable 1 c7Cfg ∧ 33 ∈ c7Cfg.s.fLists 0 ∧ ¬ (33 % levelSize 0 = 0) :=
  ⟨@Reachable.alloc 1 ⟨initState 1, []⟩ false 32 c7r1.1 c7r1.2.1 c7r1.2.2
      (@Reachable.init 1)
      (show allocate false 32 (initState 1) = .ok (c7r1.1, c7r1.2.1, c7r1.2.2) from rfl),
    by decide, by decide⟩

/-- C7 (amended): provided the initial heap break is `maxSize`-aligned, every
free block at level `l` is a multiple of `levelSize l`, every outstanding
block is a multiple of its granted size, and the break stays
`maxSize`-aligned (so every top-level block handed out by growth is
`maxSize`-aligned, and splitting and merging preserve alignment). -/
theorem c7_alignment {brk0 : Nat} {c : Config} (hal : brk0 % maxSize = 0)
    (hr : Reachable brk0 c) :
    (∀ l, ∀ x ∈ c.s.fLists l, x % levelSize l = 0) ∧
    (∀ p ∈ c.handles, p.1 % p.2 = 0) ∧ c.s.brk % maxSize = 0 :=
  (reachable_inv hr).2.2 hal

/-- C7 witness: in the reachable one-allocation state over break 4096, the
level-0 free block 4128 is 32-aligned. -/
theorem c7_witness : (4128 : Nat) % levelSize 0 = 0 :=
  (c7_alignment (by decide) cW_reach).1 0 4128 (by decide)

/-- C10 counterexample scenario: two top-level allocations over the aligned
heap break 8192, then both released. -/
def c10r1 : Nat × Nat × State :=
  (allocate false 4096 (initState 8192)).toOption.getD (0, 0, initState 0)

def c10r2 : Nat × Nat × State :=
  (allocate false 4096 c10r1.2.2).toOption.getD (0, 0, initState 0)

def c10s3 : State := (deallocate c10r1.1 c10r1.2.1 c10r2.2.2).getD (initState 0)

def c10s4 : State := (deallocate c10r2.1 c10r2.2.1 c10s3).getD (initState 0)

def c10Cfg : Config :=
  ⟨c10s4, ([(c10r2.1, c10r2.2.1), (c10r1.1, c10r1.2.1)].erase
    (c10r1.1, c10r1.2.1)).erase (c10r2.1, c10r2.2.1)⟩

/-- C10 counterexample: in a reachable state the top-level free list holds
both 8192 and its buddy `8192 XOR levelSize(7) = 12288` — top-level blocks
are never merged, so the claimed invariant fails at the top level. -/
theorem c10_counterexample :
    Reachable 8192 c10Cfg ∧ (12288 : Nat) = 8192 ^^^ levelSize (maxLevels - 1) ∧
      8192 ∈ c10Cfg.s.fLists (maxLevels - 1) ∧
      12288 ∈ c10Cfg.s.fLists (maxLevels - 1) := by
  refine ⟨?_, by decide, by decide, by decide⟩
  refine @Reachable.dealloc 8192 ⟨c10s3, [(c10r2.1, c10r2.2.1), (c10r1.1, c10r1.2.1)].erase
      (c10r1.1, c10r1.2.1)⟩ c10r2.1 c10r2.2.1 c10s4 ?_ (by decide)
    (show deallocate c10r2.1 c10r2.2.1 c10s3 = some c10s4 from rfl)
  refine @Reachable.dealloc 8192 ⟨c10r2.2.2, [(c10r2.1, c10r2.2.1), (c10r1.1, c10r1.2.1)]⟩
      c10r1.1 c10r1.2.1 c10s3 ?_ (by decide)
    (show deallocate c10r1.1 c10r1.2.1 c10r2.2.2 = some c10s3 from rfl)
  refine @Reachable.alloc 8192 ⟨c10r1.2.2, [(c10r1.1, c10r1.2.1)]⟩ false 4096 c10r2.1
      c10r2.2.1 c10r2.2.2 ?_
    (show allocate false 4096 c10r1.2.2 = .ok (c10r2.1, c10r2.2.1, c10r2.2.2) from rfl)
  exact @Reachable.alloc 8192 ⟨initState 8192, []⟩ false 4096 c10r1.1 c10r1.2.1 c10r1.2.2
    (@Reachable.init 8192)
    (show allocate false 4096 (initState 8192) = .ok (c10r1.1, c10r1.2.1, c10r1.2.2) from rfl)

/-- C10 (amended): below the top level, no reachable free list ever holds a
block together with its buddy `x XOR levelSize(l)` — coalescing is eager
there.  (At the top level `maxLevels - 1` the property fails, see the
counterexample.) -/
theorem c10_no_buddy_pair {brk0 : Nat} {c : Config} (hr : Reachable brk0 c)
    {l x : Nat} (hl : l < maxLevels - 1) (hx : x ∈ c.s.fLists l) :
    (x ^^^ levelSize l) ∉ c.s.fLists l :=
  (reachable_inv hr).1.1 l hl x hx

/-- C10 witness: in the reachable one-allocation state, the level-0 free
block 4128 does not have its buddy on the list. -/
theorem c10_witness : ((4128 : Nat) ^^^ levelSize 0) ∉ cW.s.fLists 0 :=
  c10_no_buddy_pair cW_reach (by decide) (by decide)

end Buddy
